import Mathlib

/-!
Shallow embedding of the core of the mochi BitTorrent tracker:

* the in-memory peer store (storage/memory/storage.go),
* the UDP connection-ID generator/validator (frontend/udp/connection_id.go),
* the client-approval hook (middleware/clientapproval/clientapproval.go).

Go maps are embedded as association lists (`List (String × α)`); the Go map
operations `m[k] = v`, `delete(m, k)` and `_, ok := m[k]` become `upsert`,
`eraseKey` and `List.lookup`.  A shard is embedded as one record; every store
operation touches exactly one shard (selected by `shardIndex` in the source),
so the per-shard state machine is the unit of verification.  The Go `uint64`
shard counters are embedded as `Nat`: in the source every decrement is guarded
by a membership test on the map that the counter mirrors, so no wrap-around
can occur in any state reachable from the empty shard.
-/

set_option autoImplicit false

namespace Mochi

universe u v

variable {α : Type u} {β : Type v}

/-- Go map update `m[k] = v`: replace the binding of `k` if present, otherwise
add a new binding. -/
def upsert (k : String) (v : α) : List (String × α) → List (String × α)
  | [] => [(k, v)]
  | e :: rest => if e.1 = k then (k, v) :: rest else e :: upsert k v rest

/-- Go map deletion `delete(m, k)`. -/
def eraseKey (k : String) (l : List (String × α)) : List (String × α) :=
  l.filter (fun e => e.1 ≠ k)

/-- Go membership test `_, ok := m[k]`. -/
def containsKey (k : String) (l : List (String × α)) : Bool :=
  (List.lookup k l).isSome

/-- The association list has no repeated keys (true of every Go map). -/
def KeysNodup (l : List (String × α)) : Prop :=
  (l.map Prod.fst).Nodup

/-- Sum of a value measure over an association list. -/
def valsum (f : α → Nat) (l : List (String × α)) : Nat :=
  (l.map (fun e => f e.2)).sum

/-- A swarm: serialized peer ↦ last-seen mtime (unix nanoseconds), one map for
seeders and one for leechers (struct `swarm` in storage.go). -/
structure Swarm where
  seeders : List (String × Int)
  leechers : List (String × Int)
  deriving DecidableEq, Repr

def Swarm.emptySwarm : Swarm := ⟨[], []⟩

/-- One shard of the store: infohash ↦ swarm plus the two cached aggregate
counters (struct `peerShard` in storage.go). -/
structure Shard where
  swarms : List (String × Swarm)
  numSeeders : Nat
  numLeechers : Nat
  deriving DecidableEq, Repr

def Shard.emptyShard : Shard := ⟨[], 0, 0⟩

/-- The error `storage.ErrResourceDoesNotExist`. -/
inductive StoreErr where
  | resourceDoesNotExist
  deriving DecidableEq, Repr

/-- Go `peerStore.PutSeeder`: create the swarm if absent, bump `numSeeders` when
the peer is not already a seeder, then upsert the peer with the current
clock. -/
def putSeeder (ih pk : String) (now : Int) (s : Shard) : Shard :=
  let sw := (List.lookup ih s.swarms).getD Swarm.emptySwarm
  let isNew := ¬ containsKey pk sw.seeders
  let sw' : Swarm := { sw with seeders := upsert pk now sw.seeders }
  { swarms := upsert ih sw' s.swarms
    numSeeders := if isNew then s.numSeeders + 1 else s.numSeeders
    numLeechers := s.numLeechers }

/-- Go `peerStore.PutLeecher`: symmetric to `putSeeder` on the leechers map. -/
def putLeecher (ih pk : String) (now : Int) (s : Shard) : Shard :=
  let sw := (List.lookup ih s.swarms).getD Swarm.emptySwarm
  let isNew := ¬ containsKey pk sw.leechers
  let sw' : Swarm := { sw with leechers := upsert pk now sw.leechers }
  { swarms := upsert ih sw' s.swarms
    numSeeders := s.numSeeders
    numLeechers := if isNew then s.numLeechers + 1 else s.numLeechers }

/-- Go `peerStore.DeleteSeeder`: error when the swarm or the peer is absent,
otherwise remove the peer, decrement `numSeeders`, and drop the swarm when
both sides became empty (Go tests `len(seeders)|len(leechers) == 0`). -/
def deleteSeeder (ih pk : String) (s : Shard) : Except StoreErr Shard :=
  match List.lookup ih s.swarms with
  | none => .error .resourceDoesNotExist
  | some sw =>
    if containsKey pk sw.seeders then
      let sw' : Swarm := { sw with seeders := eraseKey pk sw.seeders }
      let swarms' :=
        if sw'.seeders.length ||| sw'.leechers.length = 0 then eraseKey ih s.swarms
        else upsert ih sw' s.swarms
      .ok { swarms := swarms'
            numSeeders := s.numSeeders - 1
            numLeechers := s.numLeechers }
    else .error .resourceDoesNotExist

/-- Go `peerStore.DeleteLeecher`: symmetric to `deleteSeeder`. -/
def deleteLeecher (ih pk : String) (s : Shard) : Except StoreErr Shard :=
  match List.lookup ih s.swarms with
  | none => .error .resourceDoesNotExist
  | some sw =>
    if containsKey pk sw.leechers then
      let sw' : Swarm := { sw with leechers := eraseKey pk sw.leechers }
      let swarms' :=
        if sw'.seeders.length ||| sw'.leechers.length = 0 then eraseKey ih s.swarms
        else upsert ih sw' s.swarms
      .ok { swarms := swarms'
            numSeeders := s.numSeeders
            numLeechers := s.numLeechers - 1 }
    else .error .resourceDoesNotExist

/-- Go `peerStore.GraduateLeecher`: create the swarm if absent, remove the peer
from leechers when present (decrementing `numLeechers`), then upsert into
seeders as in `putSeeder`. -/
def graduateLeecher (ih pk : String) (now : Int) (s : Shard) : Shard :=
  let sw := (List.lookup ih s.swarms).getD Swarm.emptySwarm
  let wasLeecher := containsKey pk sw.leechers
  let sw1 : Swarm := if wasLeecher then { sw with leechers := eraseKey pk sw.leechers } else sw
  let isNewSeeder := ¬ containsKey pk sw1.seeders
  let sw2 : Swarm := { sw1 with seeders := upsert pk now sw1.seeders }
  { swarms := upsert ih sw2 s.swarms
    numSeeders := if isNewSeeder then s.numSeeders + 1 else s.numSeeders
    numLeechers := if wasLeecher then s.numLeechers - 1 else s.numLeechers }

/-- The seeders loop of `AnnouncePeers`: take keys while the remaining
`numWant` (a Go `int`) is nonzero, decrementing it per appended peer.
Returns the appended keys and the remaining count. -/
def takeCount : Int → List String → List String × Int
  | n, [] => ([], n)
  | n, pk :: rest =>
    if n = 0 then ([], 0)
    else
      let r := takeCount (n - 1) rest
      (pk :: r.1, r.2)

/-- The leecher-fill loop of `AnnouncePeers`: as `takeCount` but entries equal
to the announcer key are skipped before the count check. -/
def takeCountExcl (announcerPK : String) : Int → List String → List String × Int
  | n, [] => ([], n)
  | n, pk :: rest =>
    if pk = announcerPK then takeCountExcl announcerPK n rest
    else if n = 0 then ([], 0)
    else
      let r := takeCountExcl announcerPK (n - 1) rest
      (pk :: r.1, r.2)

/-- Go `peerStore.AnnouncePeers` restricted to the shard owning `ih`; peers are
returned by their serialized key (the source re-parses the key with
`bittorrent.NewPeer`).  A seeding announcer receives up to `numWant`
leechers; a leeching announcer receives up to `numWant` seeders and, when
capacity remains, leechers other than itself.  An absent swarm is
`ErrResourceDoesNotExist`. -/
def announcePeers (ih : String) (seeder : Bool) (numWant : Int)
    (announcerPK : String) (s : Shard) : Except StoreErr (List String) :=
  match List.lookup ih s.swarms with
  | none => .error .resourceDoesNotExist
  | some sw =>
    if seeder then
      .ok (takeCount numWant (sw.leechers.map Prod.fst)).1
    else
      let r := takeCount numWant (sw.seeders.map Prod.fst)
      if 0 < r.2 then
        .ok (r.1 ++ (takeCountExcl announcerPK r.2 (sw.leechers.map Prod.fst)).1)
      else
        .ok r.1

/-- One swarm pass of `peerStore.gc`: drop every entry whose mtime is at or
before the cutoff (Go deletes when `mtime <= cutoffUnix`; the kept entries
are those with `cutoff < mtime`). -/
def gcSwarm (cutoff : Int) (sw : Swarm) : Swarm :=
  { seeders := sw.seeders.filter (fun e => cutoff < e.2)
    leechers := sw.leechers.filter (fun e => cutoff < e.2) }

/-- Total number of seeder entries across the swarms of a shard. -/
def totalSeeders (l : List (String × Swarm)) : Nat :=
  valsum (fun sw => sw.seeders.length) l

/-- Total number of leecher entries across the swarms of a shard. -/
def totalLeechers (l : List (String × Swarm)) : Nat :=
  valsum (fun sw => sw.leechers.length) l

/-- Go `peerStore.gc` on one shard: expire entries in every swarm, decrement the
counters once per deleted entry (expressed as the total number of dropped
entries), and delete the swarms that became empty (Go tests
`len(seeders)|len(leechers) == 0`). -/
def gcShard (cutoff : Int) (s : Shard) : Shard :=
  let swarms1 := s.swarms.map (fun e => (e.1, gcSwarm cutoff e.2))
  { swarms := swarms1.filter (fun e => e.2.seeders.length ||| e.2.leechers.length ≠ 0)
    numSeeders := s.numSeeders - (totalSeeders s.swarms - totalSeeders swarms1)
    numLeechers := s.numLeechers - (totalLeechers s.swarms - totalLeechers swarms1) }

/-- The per-shard state machine: every state reachable from the empty shard by
completed store operations. -/
inductive Reachable : Shard → Prop where
  | empty : Reachable Shard.emptyShard
  | putSeeder {s} (ih pk : String) (now : Int) :
      Reachable s → Reachable (putSeeder ih pk now s)
  | putLeecher {s} (ih pk : String) (now : Int) :
      Reachable s → Reachable (putLeecher ih pk now s)
  | deleteSeeder {s s'} (ih pk : String) :
      Reachable s → deleteSeeder ih pk s = .ok s' → Reachable s'
  | deleteLeecher {s s'} (ih pk : String) :
      Reachable s → deleteLeecher ih pk s = .ok s' → Reachable s'
  | graduateLeecher {s} (ih pk : String) (now : Int) :
      Reachable s → Reachable (graduateLeecher ih pk now s)
  | gc {s} (cutoff : Int) :
      Reachable s → Reachable (gcShard cutoff s)

/-- Structural well-formedness transported from Go maps: no association list
of a shard repeats a key. -/
def WF (s : Shard) : Prop :=
  KeysNodup s.swarms ∧ ∀ e ∈ s.swarms, KeysNodup e.2.seeders ∧ KeysNodup e.2.leechers

/-- The cached shard counters agree with the swarm maps. -/
def CountersOK (s : Shard) : Prop :=
  s.numSeeders = totalSeeders s.swarms ∧ s.numLeechers = totalLeechers s.swarms

/-- Every swarm present in the shard holds at least one peer. -/
def SwarmsNonempty (s : Shard) : Prop :=
  ∀ e ∈ s.swarms, 0 < e.2.seeders.length + e.2.leechers.length

/-- The conjunction of the structural and counted invariants of a shard. -/
def StoreInv (s : Shard) : Prop :=
  WF s ∧ CountersOK s ∧ SwarmsNonempty s

/-- No peer key is simultaneously a seeder and a leecher of the same swarm. -/
def DisjointSwarms (s : Shard) : Prop :=
  ∀ e ∈ s.swarms, ∀ k, containsKey k e.2.seeders = true →
    containsKey k e.2.leechers = true → False

/-- The peer key is currently a leecher of the swarm of `ih` (used to state
when a `putSeeder` call preserves seeder/leecher disjointness). -/
def isLeecherOf (ih pk : String) (s : Shard) : Bool :=
  containsKey pk ((List.lookup ih s.swarms).getD Swarm.emptySwarm).leechers

/-- The peer key is currently a seeder of the swarm of `ih`. -/
def isSeederOf (ih pk : String) (s : Shard) : Bool :=
  containsKey pk ((List.lookup ih s.swarms).getD Swarm.emptySwarm).seeders

/-!
Connection IDs (frontend/udp/connection_id.go).  Times are embedded as unix
nanoseconds (`Int`); Go `time.Time.Unix()` floors to seconds and
`time.Unix(sec, 0)`, `Add` and `After` are exact on this representation.
The keyed HMAC-SHA256 (`crypto/hmac` over `sha256-simd`, external libraries)
is a parameter `mac` mapping a message to its digest bytes; an IP address is
its canonical `MarshalBinary` byte string (4 bytes for IPv4, 16 for IPv6).
-/

/-- The constant `ttl`: 2 minutes, in nanoseconds. -/
def ttlNs : Int := 120 * 1000000000

/-- Seconds part of a nanosecond timestamp, as Go `Time.Unix()` (floor). -/
def unixSec (tNs : Int) : Int := Int.fdiv tNs 1000000000

/-- Go `binary.BigEndian.PutUint32`. -/
def u32be (n : Nat) : List Nat :=
  [n / 16777216 % 256, n / 65536 % 256, n / 256 % 256, n % 256]

/-- Go `binary.BigEndian.Uint32` on the first four bytes. -/
def beUint32 : List Nat → Nat
  | b0 :: b1 :: b2 :: b3 :: _ => ((b0 * 256 + b1) * 256 + b2) * 256 + b3
  | _ => 0

/-- Go `ConnectionIDGenerator.Generate`: bytes 0..4 are the big-endian unix
timestamp truncated to 32 bits (Go `uint32(now.Unix())`), bytes 4..8 the
first 4 bytes of `mac(timestamp bytes ++ ip bytes)`. -/
def generate (mac : List Nat → List Nat) (ipBytes : List Nat) (nowNs : Int) :
    List Nat :=
  let tsBytes := u32be ((unixSec nowNs) % 4294967296).toNat
  tsBytes ++ (mac (tsBytes ++ ipBytes)).take 4

/-- Go `ConnectionIDGenerator.Validate`.  `none` embeds the Go panic (slice bound
out of range) raised by `connectionID[:4]` when fewer than 4 bytes are given.
Otherwise: parse the embedded timestamp, reject when expired
(`now.After(ts.Add(ttl))`) or too far in the future
(`ts.After(now.Add(maxClockSkew))`), else compare the recomputed 4-byte tag
with `connectionID[4:]` (`hmac.Equal` is false on length mismatch). -/
def validate (mac : List Nat → List Nat) (connID ipBytes : List Nat)
    (nowNs maxSkew : Int) : Option Bool :=
  if connID.length < 4 then none
  else
    let tsNs : Int := (beUint32 (connID.take 4) : Nat) * 1000000000
    if nowNs > tsNs + ttlNs ∨ tsNs > nowNs + maxSkew then some false
    else some (decide ((mac (connID.take 4 ++ ipBytes)).take 4 = connID.drop 4))

/-!
Client approval (middleware/clientapproval/clientapproval.go).  Go strings of
bytes are embedded as `List Nat`; the `map[ClientID]struct{}` sets as
duplicate-free lists of their keys.
-/

/-- Modelled from the spec: `NewClientID` (referenced by `HandleAnnounce` but
defined outside the given sources) extracts the 6-byte ClientID prefix of a
20-byte peer ID. -/
def newClientID (peerID : List Nat) : List Nat := peerID.take 6

/-- Go `clientapproval.Config`: the `whitelist` and `blacklist` string lists. -/
structure CAConfig where
  whitelist : List (List Nat)
  blacklist : List (List Nat)
  deriving DecidableEq

/-- The `hook` struct: the `approved` and `unapproved` ClientID sets. -/
structure CAHook where
  approved : List (List Nat)
  unapproved : List (List Nat)
  deriving DecidableEq

/-- One configuration loop of `NewHook`: each entry must be exactly 6 bytes,
accepted entries are added to the set. -/
def buildSet : List (List Nat) → Except String (List (List Nat))
  | [] => .ok []
  | cid :: rest =>
    if cid.length = 6 then
      (buildSet rest).map (fun s => if cid ∈ s then s else cid :: s)
    else .error "client ID must be 6 bytes"

/-- Go `clientapproval.NewHook`: reject a configuration naming both lists, then
build the approved set from the whitelist and the unapproved set from the
blacklist. -/
def newHook (cfg : CAConfig) : Except String CAHook :=
  if 0 < cfg.whitelist.length ∧ 0 < cfg.blacklist.length then
    .error "using both whitelist and blacklist is invalid"
  else
    match buildSet cfg.whitelist with
    | .error e => .error e
    | .ok a =>
      match buildSet cfg.blacklist with
      | .error e => .error e
      | .ok u => .ok ⟨a, u⟩

/-- Go `hook.HandleAnnounce`: `some err` embeds returning `ErrClientUnapproved`,
`none` admits. -/
def handleAnnounce (h : CAHook) (peerID : List Nat) : Option String :=
  let clientID := newClientID peerID
  if 0 < h.approved.length ∧ clientID ∉ h.approved then
    some "unapproved client"
  else if 0 < h.unapproved.length ∧ clientID ∈ h.unapproved then
    some "unapproved client"
  else none

/-! Helper lemmas about the association-list embedding of Go maps. -/

section AssocLemmas

variable {α : Type u}

lemma lookup_nil (k : String) : List.lookup k ([] : List (String × α)) = none :=
  rfl

lemma lookup_cons (k : String) (e : String × α) (rest : List (String × α)) :
    List.lookup k (e :: rest) =
      if k = e.1 then some e.2 else List.lookup k rest := by
  obtain ⟨k0, v0⟩ := e
  show List.lookup k ((k0, v0) :: rest) = _
  cases hbk : (k == k0) with
  | true =>
    have hk : k = k0 := eq_of_beq hbk
    rw [List.lookup, hbk, if_pos hk]
  | false =>
    have hk : ¬ k = k0 := by
      intro hkk
      rw [hkk] at hbk
      simp at hbk
    rw [List.lookup, hbk, if_neg hk]

lemma lookup_upsert_self (k : String) (v : α) (l : List (String × α)) :
    List.lookup k (upsert k v l) = some v := by
  induction l with
  | nil => simp [upsert, lookup_cons]
  | cons e rest ih =>
    by_cases h : e.1 = k
    · simp [upsert, h, lookup_cons]
    · simp [upsert, h, lookup_cons, Ne.symm h, ih]

lemma lookup_upsert_ne (k k' : String) (v : α) (l : List (String × α))
    (h : k' ≠ k) : List.lookup k' (upsert k v l) = List.lookup k' l := by
  induction l with
  | nil => simp [upsert, lookup_cons, lookup_nil, h]
  | cons e rest ih =>
    by_cases he : e.1 = k
    · subst he
      simp [upsert, lookup_cons, h]
    · by_cases he' : k' = e.1
      · simp [upsert, he, lookup_cons, he']
      · simp [upsert, he, lookup_cons, he', ih]

lemma mem_upsert {e : String × α} (k : String) (v : α) (l : List (String × α))
    (h : e ∈ upsert k v l) : e ∈ l ∨ e = (k, v) := by
  induction l with
  | nil => simpa [upsert] using h
  | cons e0 rest ih =>
    by_cases he : e0.1 = k
    · simp only [upsert, he, if_pos rfl] at h
      rcases List.mem_cons.mp h with h | h
      · right; exact h
      · left; exact List.mem_cons_of_mem _ h
    · simp only [upsert, he, if_neg he] at h
      rcases List.mem_cons.mp h with h | h
      · left; simp [h]
      · rcases ih h with h | h
        · left; exact List.mem_cons_of_mem _ h
        · right; exact h

lemma keys_upsert_present (k : String) (v : α) (l : List (String × α))
    (h : containsKey k l = true) :
    (upsert k v l).map Prod.fst = l.map Prod.fst := by
  induction l with
  | nil => simp [containsKey, lookup_nil] at h
  | cons e rest ih =>
    by_cases he : e.1 = k
    · simp [upsert, he]
    · have h' : containsKey k rest = true := by
        simpa [containsKey, lookup_cons, Ne.symm he] using h
      simp [upsert, he, ih h']

lemma keys_upsert_absent (k : String) (v : α) (l : List (String × α))
    (h : containsKey k l = false) :
    (upsert k v l).map Prod.fst = l.map Prod.fst ++ [k] := by
  induction l with
  | nil => simp [upsert]
  | cons e rest ih =>
    by_cases he : e.1 = k
    · exfalso
      simp [containsKey, lookup_cons, he] at h
    · have h' : containsKey k rest = false := by
        simpa [containsKey, lookup_cons, Ne.symm he] using h
      simp [upsert, he, ih h']

lemma containsKey_of_mem {k : String} {v : α} {l : List (String × α)}
    (h : (k, v) ∈ l) : containsKey k l = true := by
  induction l with
  | nil => simp at h
  | cons e rest ih =>
    rcases List.mem_cons.mp h with rfl | hmem
    · simp [containsKey, lookup_cons]
    · by_cases he : k = e.1
      · simp [containsKey, lookup_cons, he]
      · simpa [containsKey, lookup_cons, he] using ih hmem

lemma not_mem_keys_of_not_contains {k : String} {l : List (String × α)}
    (hc : containsKey k l = false) : k ∉ l.map Prod.fst := by
  intro hmem
  rcases List.mem_map.mp hmem with ⟨e, he, rfl⟩
  have : containsKey e.1 l = true := containsKey_of_mem (v := e.2) (by simpa using he)
  rw [this] at hc
  cases hc

lemma keysNodup_upsert (k : String) (v : α) {l : List (String × α)}
    (h : KeysNodup l) : KeysNodup (upsert k v l) := by
  unfold KeysNodup at h ⊢
  cases hc : containsKey k l with
  | true => rw [keys_upsert_present k v l hc]; exact h
  | false =>
    rw [keys_upsert_absent k v l hc]
    refine List.Nodup.append h (List.nodup_singleton k) ?_
    intro a ha hk
    rcases List.mem_singleton.mp hk with rfl
    exact not_mem_keys_of_not_contains hc ha

lemma length_upsert_present (k : String) (v : α) (l : List (String × α))
    (h : containsKey k l = true) : (upsert k v l).length = l.length := by
  have := keys_upsert_present k v l h
  have h1 : ((upsert k v l).map Prod.fst).length = (l.map Prod.fst).length := by
    rw [this]
  simpa using h1

lemma length_upsert_absent (k : String) (v : α) (l : List (String × α))
    (h : containsKey k l = false) : (upsert k v l).length = l.length + 1 := by
  have := keys_upsert_absent k v l h
  have h1 : ((upsert k v l).map Prod.fst).length = (l.map Prod.fst ++ [k]).length := by
    rw [this]
  simpa using h1

lemma upsert_ne_nil (k : String) (v : α) (l : List (String × α)) :
    0 < (upsert k v l).length := by
  cases l with
  | nil => simp [upsert]
  | cons e rest =>
    by_cases he : e.1 = k <;> simp [upsert, he]

lemma lookup_eraseKey_self (k : String) (l : List (String × α)) :
    List.lookup k (eraseKey k l) = none := by
  induction l with
  | nil => simp [eraseKey]
  | cons e rest ih =>
    by_cases he : e.1 = k
    · simpa [eraseKey, he] using ih
    · simpa [eraseKey, he, lookup_cons, Ne.symm he] using ih

lemma lookup_eraseKey_ne (k k' : String) (l : List (String × α)) (h : k' ≠ k) :
    List.lookup k' (eraseKey k l) = List.lookup k' l := by
  induction l with
  | nil => simp [eraseKey]
  | cons e rest ih =>
    by_cases he : e.1 = k
    · have hne : k' ≠ e.1 := by rw [he]; exact h
      simpa [eraseKey, he, lookup_cons, hne, h] using ih
    · by_cases he' : k' = e.1
      · simp [eraseKey, he, lookup_cons, he']
      · simpa [eraseKey, he, lookup_cons, he'] using ih

lemma mem_eraseKey {e : String × α} (k : String) (l : List (String × α))
    (h : e ∈ eraseKey k l) : e ∈ l :=
  List.mem_of_mem_filter h

lemma keysNodup_eraseKey (k : String) {l : List (String × α)}
    (h : KeysNodup l) : KeysNodup (eraseKey k l) := by
  unfold KeysNodup at h ⊢
  exact ((List.filter_sublist l).map Prod.fst).nodup h

lemma lookup_mem {k : String} {v : α} {l : List (String × α)}
    (h : List.lookup k l = some v) : (k, v) ∈ l := by
  induction l with
  | nil => simp [lookup_nil] at h
  | cons e rest ih =>
    rw [lookup_cons] at h
    by_cases he : k = e.1
    · rw [if_pos he] at h
      have hv : e.2 = v := by injection h
      have hkv : (k, v) = e := by
        obtain ⟨a, b⟩ := e
        simp only at he hv
        rw [he, hv]
      rw [hkv]
      exact List.mem_cons_self _ _
    · rw [if_neg he] at h
      exact List.mem_cons_of_mem _ (ih h)

lemma containsKey_iff_lookup {k : String} {l : List (String × α)} :
    containsKey k l = true ↔ (List.lookup k l).isSome = true := by
  rw [containsKey]

lemma eraseKey_cons_of_eq {k : String} {e : String × α}
    {rest : List (String × α)} (he : e.1 = k) :
    eraseKey k (e :: rest) = eraseKey k rest := by
  simp [eraseKey, he]

lemma eraseKey_cons_of_ne {k : String} {e : String × α}
    {rest : List (String × α)} (he : e.1 ≠ k) :
    eraseKey k (e :: rest) = e :: eraseKey k rest := by
  simp [eraseKey, he]

lemma eraseKey_of_head_nodup {k : String} {e : String × α}
    {rest : List (String × α)} (hn : KeysNodup (e :: rest)) (he : e.1 = k) :
    eraseKey k rest = rest := by
  have hkmem : e.1 ∉ rest.map Prod.fst := (List.nodup_cons.mp hn).1
  unfold eraseKey
  refine List.filter_eq_self.mpr ?_
  intro a ha
  have : a.1 ≠ k := by
    intro hak
    exact hkmem (List.mem_map.mpr ⟨a, ha, by rw [hak, he]⟩)
  simpa using this

lemma length_eraseKey {k : String} {v : α} {l : List (String × α)}
    (hn : KeysNodup l) (h : List.lookup k l = some v) :
    (eraseKey k l).length + 1 = l.length := by
  induction l with
  | nil => simp [lookup_nil] at h
  | cons e rest ih =>
    have hn' : KeysNodup rest := by
      unfold KeysNodup at hn ⊢
      exact (List.nodup_cons.mp hn).2
    by_cases he : k = e.1
    · rw [eraseKey_cons_of_eq he.symm, eraseKey_of_head_nodup hn he.symm]
      simp
    · rw [lookup_cons, if_neg he] at h
      rw [eraseKey_cons_of_ne (fun hek => he hek.symm)]
      simpa using ih hn' h

lemma valsum_cons (f : α → Nat) (e : String × α) (rest : List (String × α)) :
    valsum f (e :: rest) = f e.2 + valsum f rest := by
  simp [valsum]

lemma valsum_upsert_absent (f : α → Nat) (k : String) (v : α)
    {l : List (String × α)} (h : List.lookup k l = none) :
    valsum f (upsert k v l) = valsum f l + f v := by
  induction l with
  | nil => simp [upsert, valsum]
  | cons e rest ih =>
    rw [lookup_cons] at h
    by_cases he : k = e.1
    · rw [if_pos he] at h
      exact absurd h (by simp)
    · rw [if_neg he] at h
      have hne : e.1 ≠ k := fun hek => he hek.symm
      have hu : upsert k v (e :: rest) = e :: upsert k v rest := by
        simp [upsert, hne]
      rw [hu, valsum_cons, valsum_cons, ih h]
      omega

lemma valsum_upsert_present (f : α → Nat) (k : String) (v : α)
    {l : List (String × α)} {x : α} (h : List.lookup k l = some x)
    (hn : KeysNodup l) :
    valsum f (upsert k v l) + f x = valsum f l + f v := by
  induction l with
  | nil => simp [lookup_nil] at h
  | cons e rest ih =>
    have hn' : KeysNodup rest := by
      unfold KeysNodup at hn ⊢
      exact (List.nodup_cons.mp hn).2
    rw [lookup_cons] at h
    by_cases he : k = e.1
    · rw [if_pos he] at h
      have hx : e.2 = x := by injection h
      have hu : upsert k v (e :: rest) = (k, v) :: rest := by
        simp [upsert, he.symm]
      rw [hu, valsum_cons, valsum_cons, hx]
      have hv : ((k, v) : String × α).2 = v := rfl
      rw [hv]
      omega
    · rw [if_neg he] at h
      have hne : e.1 ≠ k := fun hek => he hek.symm
      have hu : upsert k v (e :: rest) = e :: upsert k v rest := by
        simp [upsert, hne]
      rw [hu, valsum_cons, valsum_cons]
      have := ih h hn'
      omega

lemma valsum_eraseKey (f : α → Nat) {k : String} {x : α}
    {l : List (String × α)} (h : List.lookup k l = some x)
    (hn : KeysNodup l) :
    valsum f (eraseKey k l) + f x = valsum f l := by
  induction l with
  | nil => simp [lookup_nil] at h
  | cons e rest ih =>
    have hn' : KeysNodup rest := by
      unfold KeysNodup at hn ⊢
      exact (List.nodup_cons.mp hn).2
    rw [lookup_cons] at h
    by_cases he : k = e.1
    · rw [if_pos he] at h
      have hx : e.2 = x := by injection h
      rw [eraseKey_cons_of_eq he.symm, eraseKey_of_head_nodup hn he.symm]
      rw [valsum_cons, hx]
      omega
    · rw [if_neg he] at h
      rw [eraseKey_cons_of_ne (fun hek => he hek.symm)]
      rw [valsum_cons, valsum_cons]
      have := ih h hn'
      omega

lemma valsum_filter_of_zero (f : α → Nat) (p : String × α → Bool)
    {l : List (String × α)} (h : ∀ e ∈ l, p e = false → f e.2 = 0) :
    valsum f (l.filter p) = valsum f l := by
  induction l with
  | nil => simp [valsum]
  | cons e rest ih =>
    have ih' := ih (fun e' he' hp => h e' (List.mem_cons_of_mem _ he') hp)
    cases hp : p e with
    | true =>
      rw [List.filter_cons, if_pos (by rw [hp]), valsum_cons, valsum_cons, ih']
    | false =>
      rw [List.filter_cons, if_neg (by rw [hp]; exact Bool.false_ne_true), ih',
        valsum_cons, h e (List.mem_cons_self _ _) hp]
      omega

end AssocLemmas

/-! Preservation of the shard invariants by every store operation. -/

section InvariantLemmas

lemma lor_eq_zero_iff (a b : Nat) : a ||| b = 0 ↔ a = 0 ∧ b = 0 := by
  constructor
  · intro h
    have h1 : a ≤ a ||| b :=
      Nat.le_of_testBit (by intro i hi; simpa [Nat.testBit_lor] using Or.inl hi)
    have h2 : b ≤ a ||| b :=
      Nat.le_of_testBit (by intro i hi; simpa [Nat.testBit_lor] using Or.inr hi)
    omega
  · rintro ⟨rfl, rfl⟩
    rfl

lemma keysNodup_filter {α : Type u} (p : String × α → Bool)
    {l : List (String × α)} (h : KeysNodup l) : KeysNodup (l.filter p) :=
  ((List.filter_sublist l).map Prod.fst).nodup h

lemma valsum_map {α β : Type u} (f : β → Nat) (g : α → β)
    (l : List (String × α)) :
    valsum f (l.map (fun e => (e.1, g e.2))) = valsum (fun a => f (g a)) l := by
  rw [valsum, valsum, List.map_map]
  rfl

lemma valsum_le_valsum {α : Type u} {f g : α → Nat} {l : List (String × α)}
    (h : ∀ e ∈ l, f e.2 ≤ g e.2) : valsum f l ≤ valsum g l := by
  induction l with
  | nil => simp [valsum]
  | cons e rest ih =>
    have h1 := h e (List.mem_cons_self _ _)
    have h2 := ih (fun e' he' => h e' (List.mem_cons_of_mem _ he'))
    rw [valsum_cons, valsum_cons]
    omega

lemma swarm_keys_of_mem {s : Shard}
    (hswn : ∀ e ∈ s.swarms, KeysNodup e.2.seeders ∧ KeysNodup e.2.leechers)
    {ih : String} {sw : Swarm} (hl : List.lookup ih s.swarms = some sw) :
    KeysNodup sw.seeders ∧ KeysNodup sw.leechers := by
  simpa using hswn _ (lookup_mem hl)

lemma emptySwarm_nodup : KeysNodup (Swarm.emptySwarm.seeders) ∧
    KeysNodup (Swarm.emptySwarm.leechers) := by
  constructor <;> simp [Swarm.emptySwarm, KeysNodup]

lemma containsKey_empty (pk : String) :
    containsKey pk (Swarm.emptySwarm.seeders) = false ∧
    containsKey pk (Swarm.emptySwarm.leechers) = false := by
  constructor <;> simp [containsKey, Swarm.emptySwarm, lookup_nil]

lemma putSeeder_inv (ihash pk : String) (now : Int) {s : Shard}
    (h : StoreInv s) : StoreInv (putSeeder ihash pk now s) := by
  obtain ⟨⟨hkn, hswn⟩, ⟨hcs, hcl⟩, hne⟩ := h
  cases hl : List.lookup ihash s.swarms with
  | none =>
    unfold putSeeder
    simp only [hl, Option.getD_none, (containsKey_empty pk).1, Bool.false_eq_true,
      not_false_eq_true, if_true]
    refine ⟨⟨keysNodup_upsert _ _ hkn, ?_⟩, ⟨?_, ?_⟩, ?_⟩
    · intro e hmem
      rcases mem_upsert _ _ _ hmem with hold | rfl
      · exact hswn e hold
      · constructor <;> simp [Swarm.emptySwarm, KeysNodup, upsert]
    · have hv := valsum_upsert_absent (fun sw => sw.seeders.length) ihash
        ({ Swarm.emptySwarm with seeders := upsert pk now Swarm.emptySwarm.seeders }) hl
      have hlen : (upsert pk now Swarm.emptySwarm.seeders).length = 1 := by
        simp [upsert, Swarm.emptySwarm]
      show s.numSeeders + 1 = totalSeeders _
      rw [totalSeeders] at *
      rw [hv]
      simp only [hlen]
      omega
    · have hv := valsum_upsert_absent (fun sw => sw.leechers.length) ihash
        ({ Swarm.emptySwarm with seeders := upsert pk now Swarm.emptySwarm.seeders }) hl
      show s.numLeechers = totalLeechers _
      rw [totalLeechers] at *
      rw [hv]
      simp [Swarm.emptySwarm]
      omega
    · intro e hmem
      rcases mem_upsert _ _ _ hmem with hold | rfl
      · exact hne e hold
      · simp [Swarm.emptySwarm, upsert]
  | some sw0 =>
    unfold putSeeder
    simp only [hl, Option.getD_some]
    obtain ⟨hs0, hl0⟩ := swarm_keys_of_mem hswn hl
    refine ⟨⟨keysNodup_upsert _ _ hkn, ?_⟩, ⟨?_, ?_⟩, ?_⟩
    · intro e hmem
      rcases mem_upsert _ _ _ hmem with hold | rfl
      · exact hswn e hold
      · exact ⟨keysNodup_upsert _ _ hs0, hl0⟩
    · have hv := valsum_upsert_present (fun sw => sw.seeders.length) ihash
        ({ sw0 with seeders := upsert pk now sw0.seeders }) hl hkn
      by_cases hc : containsKey pk sw0.seeders = true
      · have hlen := length_upsert_present pk now sw0.seeders hc
        simp only [hc, not_true_eq_false, if_false]
        show s.numSeeders = totalSeeders _
        rw [totalSeeders] at *
        simp only [hlen] at hv
        omega
      · have hc' : containsKey pk sw0.seeders = false := by
          cases hcc : containsKey pk sw0.seeders
          · rfl
          · exact absurd hcc hc
        have hlen := length_upsert_absent pk now sw0.seeders hc'
        simp only [hc', Bool.false_eq_true, not_false_eq_true, if_true]
        show s.numSeeders + 1 = totalSeeders _
        rw [totalSeeders] at *
        simp only [hlen] at hv
        omega
    · have hv := valsum_upsert_present (fun sw => sw.leechers.length) ihash
        ({ sw0 with seeders := upsert pk now sw0.seeders }) hl hkn
      have heq : valsum (fun sw => sw.leechers.length)
          (upsert ihash { sw0 with seeders := upsert pk now sw0.seeders } s.swarms) =
          valsum (fun sw => sw.leechers.length) s.swarms := Nat.add_right_cancel hv
      show s.numLeechers = totalLeechers
        (upsert ihash { sw0 with seeders := upsert pk now sw0.seeders } s.swarms)
      rw [totalLeechers] at hcl ⊢
      rw [heq]
      exact hcl
    · intro e hmem
      rcases mem_upsert _ _ _ hmem with hold | rfl
      · exact hne e hold
      · have := upsert_ne_nil pk now sw0.seeders
        simp only
        omega

lemma putLeecher_inv (ihash pk : String) (now : Int) {s : Shard}
    (h : StoreInv s) : StoreInv (putLeecher ihash pk now s) := by
  obtain ⟨⟨hkn, hswn⟩, ⟨hcs, hcl⟩, hne⟩ := h
  cases hl : List.lookup ihash s.swarms with
  | none =>
    unfold putLeecher
    simp only [hl, Option.getD_none, (containsKey_empty pk).2, Bool.false_eq_true,
      not_false_eq_true, if_true]
    refine ⟨⟨keysNodup_upsert _ _ hkn, ?_⟩, ⟨?_, ?_⟩, ?_⟩
    · intro e hmem
      rcases mem_upsert _ _ _ hmem with hold | rfl
      · exact hswn e hold
      · constructor <;> simp [Swarm.emptySwarm, KeysNodup, upsert]
    · have hv := valsum_upsert_absent (fun sw => sw.seeders.length) ihash
        ({ Swarm.emptySwarm with leechers := upsert pk now Swarm.emptySwarm.leechers }) hl
      show s.numSeeders = totalSeeders _
      rw [totalSeeders] at *
      rw [hv]
      simp [Swarm.emptySwarm]
      omega
    · have hv := valsum_upsert_absent (fun sw => sw.leechers.length) ihash
        ({ Swarm.emptySwarm with leechers := upsert pk now Swarm.emptySwarm.leechers }) hl
      have hlen : (upsert pk now Swarm.emptySwarm.leechers).length = 1 := by
        simp [upsert, Swarm.emptySwarm]
      show s.numLeechers + 1 = totalLeechers _
      rw [totalLeechers] at *
      rw [hv]
      simp only [hlen]
      omega
    · intro e hmem
      rcases mem_upsert _ _ _ hmem with hold | rfl
      · exact hne e hold
      · simp [Swarm.emptySwarm, upsert]
  | some sw0 =>
    unfold putLeecher
    simp only [hl, Option.getD_some]
    obtain ⟨hs0, hl0⟩ := swarm_keys_of_mem hswn hl
    refine ⟨⟨keysNodup_upsert _ _ hkn, ?_⟩, ⟨?_, ?_⟩, ?_⟩
    · intro e hmem
      rcases mem_upsert _ _ _ hmem with hold | rfl
      · exact hswn e hold
      · exact ⟨hs0, keysNodup_upsert _ _ hl0⟩
    · have hv := valsum_upsert_present (fun sw => sw.seeders.length) ihash
        ({ sw0 with leechers := upsert pk now sw0.leechers }) hl hkn
      have heq : valsum (fun sw => sw.seeders.length)
          (upsert ihash { sw0 with leechers := upsert pk now sw0.leechers } s.swarms) =
          valsum (fun sw => sw.seeders.length) s.swarms := Nat.add_right_cancel hv
      show s.numSeeders = totalSeeders
        (upsert ihash { sw0 with leechers := upsert pk now sw0.leechers } s.swarms)
      rw [totalSeeders] at hcs ⊢
      rw [heq]
      exact hcs
    · have hv := valsum_upsert_present (fun sw => sw.leechers.length) ihash
        ({ sw0 with leechers := upsert pk now sw0.leechers }) hl hkn
      by_cases hc : containsKey pk sw0.leechers = true
      · have hlen := length_upsert_present pk now sw0.leechers hc
        simp only [hc, not_true_eq_false, if_false]
        show s.numLeechers = totalLeechers _
        rw [totalLeechers] at *
        simp only [hlen] at hv
        omega
      · have hc' : containsKey pk sw0.leechers = false := by
          cases hcc : containsKey pk sw0.leechers
          · rfl
          · exact absurd hcc hc
        have hlen := length_upsert_absent pk now sw0.leechers hc'
        simp only [hc', Bool.false_eq_true, not_false_eq_true, if_true]
        show s.numLeechers + 1 = totalLeechers _
        rw [totalLeechers] at *
        simp only [hlen] at hv
        omega
    · intro e hmem
      rcases mem_upsert _ _ _ hmem with hold | rfl
      · exact hne e hold
      · have := upsert_ne_nil pk now sw0.leechers
        simp only
        omega

lemma deleteSeeder_ok {ihash pk : String} {s s' : Shard}
    (h : deleteSeeder ihash pk s = .ok s') :
    ∃ sw, List.lookup ihash s.swarms = some sw ∧
      containsKey pk sw.seeders = true ∧
      s' = { swarms :=
               if (eraseKey pk sw.seeders).length ||| sw.leechers.length = 0
               then eraseKey ihash s.swarms
               else upsert ihash { sw with seeders := eraseKey pk sw.seeders } s.swarms
             numSeeders := s.numSeeders - 1
             numLeechers := s.numLeechers } := by
  unfold deleteSeeder at h
  cases hl : List.lookup ihash s.swarms with
  | none =>
    simp only [hl] at h
    exact absurd h (by simp)
  | some sw =>
    simp only [hl] at h
    by_cases hc : containsKey pk sw.seeders = true
    · refine ⟨sw, rfl, hc, ?_⟩
      rw [if_pos hc] at h
      simpa using h.symm
    · rw [if_neg hc] at h
      exact absurd h (by simp)

lemma deleteLeecher_ok {ihash pk : String} {s s' : Shard}
    (h : deleteLeecher ihash pk s = .ok s') :
    ∃ sw, List.lookup ihash s.swarms = some sw ∧
      containsKey pk sw.leechers = true ∧
      s' = { swarms :=
               if sw.seeders.length ||| (eraseKey pk sw.leechers).length = 0
               then eraseKey ihash s.swarms
               else upsert ihash { sw with leechers := eraseKey pk sw.leechers } s.swarms
             numSeeders := s.numSeeders
             numLeechers := s.numLeechers - 1 } := by
  unfold deleteLeecher at h
  cases hl : List.lookup ihash s.swarms with
  | none =>
    simp only [hl] at h
    exact absurd h (by simp)
  | some sw =>
    simp only [hl] at h
    by_cases hc : containsKey pk sw.leechers = true
    · refine ⟨sw, rfl, hc, ?_⟩
      rw [if_pos hc] at h
      simpa using h.symm
    · rw [if_neg hc] at h
      exact absurd h (by simp)

lemma deleteSeeder_inv {ihash pk : String} {s s' : Shard} (h : StoreInv s)
    (hok : deleteSeeder ihash pk s = .ok s') : StoreInv s' := by
  obtain ⟨⟨hkn, hswn⟩, ⟨hcs, hcl⟩, hne⟩ := h
  obtain ⟨sw, hl, hc, rfl⟩ := deleteSeeder_ok hok
  obtain ⟨hs0, hl0⟩ := swarm_keys_of_mem hswn hl
  obtain ⟨v, hv⟩ := Option.isSome_iff_exists.mp hc
  have hlen := length_eraseKey (v := v) hs0 hv
  have hvS := valsum_eraseKey (fun sw => sw.seeders.length) hl hkn
  have hvL := valsum_eraseKey (fun sw => sw.leechers.length) hl hkn
  beta_reduce at hvS hvL
  by_cases hz : (eraseKey pk sw.seeders).length ||| sw.leechers.length = 0
  · obtain ⟨hz1, hz2⟩ := (lor_eq_zero_iff _ _).mp hz
    rw [if_pos hz]
    refine ⟨⟨keysNodup_eraseKey _ hkn, ?_⟩, ⟨?_, ?_⟩, ?_⟩
    · intro e hmem
      exact hswn e (mem_eraseKey _ _ hmem)
    · show s.numSeeders - 1 = totalSeeders (eraseKey ihash s.swarms)
      rw [totalSeeders] at hcs ⊢
      omega
    · show s.numLeechers = totalLeechers (eraseKey ihash s.swarms)
      rw [totalLeechers] at hcl ⊢
      have : (fun sw => sw.leechers.length) sw = 0 := hz2
      omega
    · intro e hmem
      exact hne e (mem_eraseKey _ _ hmem)
  · rw [if_neg hz]
    have hvS2 := valsum_upsert_present (fun sw => sw.seeders.length) ihash
      ({ sw with seeders := eraseKey pk sw.seeders }) hl hkn
    have hvL2 := valsum_upsert_present (fun sw => sw.leechers.length) ihash
      ({ sw with seeders := eraseKey pk sw.seeders }) hl hkn
    beta_reduce at hvS2 hvL2
    simp only [] at hvS2 hvL2
    refine ⟨⟨keysNodup_upsert _ _ hkn, ?_⟩, ⟨?_, ?_⟩, ?_⟩
    · intro e hmem
      rcases mem_upsert _ _ _ hmem with hold | rfl
      · exact hswn e hold
      · exact ⟨keysNodup_eraseKey _ hs0, hl0⟩
    · show s.numSeeders - 1 = totalSeeders
        (upsert ihash { sw with seeders := eraseKey pk sw.seeders } s.swarms)
      rw [totalSeeders] at hcs ⊢
      have hb : (fun sw => sw.seeders.length)
          ({ sw with seeders := eraseKey pk sw.seeders } : Swarm) =
          (eraseKey pk sw.seeders).length := rfl
      omega
    · show s.numLeechers = totalLeechers
        (upsert ihash { sw with seeders := eraseKey pk sw.seeders } s.swarms)
      rw [totalLeechers] at hcl ⊢
      have heq : valsum (fun sw => sw.leechers.length)
          (upsert ihash { sw with seeders := eraseKey pk sw.seeders } s.swarms) =
          valsum (fun sw => sw.leechers.length) s.swarms := Nat.add_right_cancel hvL2
      rw [heq]
      exact hcl
    · intro e hmem
      rcases mem_upsert _ _ _ hmem with hold | rfl
      · exact hne e hold
      · have : ¬ ((eraseKey pk sw.seeders).length = 0 ∧ sw.leechers.length = 0) :=
          fun hand => hz ((lor_eq_zero_iff _ _).mpr hand)
        show 0 < (eraseKey pk sw.seeders).length + sw.leechers.length
        omega

lemma deleteLeecher_inv {ihash pk : String} {s s' : Shard} (h : StoreInv s)
    (hok : deleteLeecher ihash pk s = .ok s') : StoreInv s' := by
  obtain ⟨⟨hkn, hswn⟩, ⟨hcs, hcl⟩, hne⟩ := h
  obtain ⟨sw, hl, hc, rfl⟩ := deleteLeecher_ok hok
  obtain ⟨hs0, hl0⟩ := swarm_keys_of_mem hswn hl
  obtain ⟨v, hv⟩ := Option.isSome_iff_exists.mp hc
  have hlen := length_eraseKey (v := v) hl0 hv
  have hvS := valsum_eraseKey (fun sw => sw.seeders.length) hl hkn
  have hvL := valsum_eraseKey (fun sw => sw.leechers.length) hl hkn
  beta_reduce at hvS hvL
  by_cases hz : sw.seeders.length ||| (eraseKey pk sw.leechers).length = 0
  · obtain ⟨hz1, hz2⟩ := (lor_eq_zero_iff _ _).mp hz
    rw [if_pos hz]
    refine ⟨⟨keysNodup_eraseKey _ hkn, ?_⟩, ⟨?_, ?_⟩, ?_⟩
    · intro e hmem
      exact hswn e (mem_eraseKey _ _ hmem)
    · show s.numSeeders = totalSeeders (eraseKey ihash s.swarms)
      rw [totalSeeders] at hcs ⊢
      have : (fun sw => sw.seeders.length) sw = 0 := hz1
      omega
    · show s.numLeechers - 1 = totalLeechers (eraseKey ihash s.swarms)
      rw [totalLeechers] at hcl ⊢
      omega
    · intro e hmem
      exact hne e (mem_eraseKey _ _ hmem)
  · rw [if_neg hz]
    have hvS2 := valsum_upsert_present (fun sw => sw.seeders.length) ihash
      ({ sw with leechers := eraseKey pk sw.leechers }) hl hkn
    have hvL2 := valsum_upsert_present (fun sw => sw.leechers.length) ihash
      ({ sw with leechers := eraseKey pk sw.leechers }) hl hkn
    beta_reduce at hvS2 hvL2
    simp only [] at hvS2 hvL2
    refine ⟨⟨keysNodup_upsert _ _ hkn, ?_⟩, ⟨?_, ?_⟩, ?_⟩
    · intro e hmem
      rcases mem_upsert _ _ _ hmem with hold | rfl
      · exact hswn e hold
      · exact ⟨hs0, keysNodup_eraseKey _ hl0⟩
    · show s.numSeeders = totalSeeders
        (upsert ihash { sw with leechers := eraseKey pk sw.leechers } s.swarms)
      rw [totalSeeders] at hcs ⊢
      have heq : valsum (fun sw => sw.seeders.length)
          (upsert ihash { sw with leechers := eraseKey pk sw.leechers } s.swarms) =
          valsum (fun sw => sw.seeders.length) s.swarms := Nat.add_right_cancel hvS2
      rw [heq]
      exact hcs
    · show s.numLeechers - 1 = totalLeechers
        (upsert ihash { sw with leechers := eraseKey pk sw.leechers } s.swarms)
      rw [totalLeechers] at hcl ⊢
      have hb : (fun sw => sw.leechers.length)
          ({ sw with leechers := eraseKey pk sw.leechers } : Swarm) =
          (eraseKey pk sw.leechers).length := rfl
      omega
    · intro e hmem
      rcases mem_upsert _ _ _ hmem with hold | rfl
      · exact hne e hold
      · have : ¬ (sw.seeders.length = 0 ∧ (eraseKey pk sw.leechers).length = 0) :=
          fun hand => hz ((lor_eq_zero_iff _ _).mpr hand)
        show 0 < sw.seeders.length + (eraseKey pk sw.leechers).length
        omega

lemma graduateLeecher_inv (ihash pk : String) (now : Int) {s : Shard}
    (h : StoreInv s) : StoreInv (graduateLeecher ihash pk now s) := by
  obtain ⟨⟨hkn, hswn⟩, ⟨hcs, hcl⟩, hne⟩ := h
  cases hl : List.lookup ihash s.swarms with
  | none =>
    unfold graduateLeecher
    simp only [hl, Option.getD_none, (containsKey_empty pk).1, (containsKey_empty pk).2,
      Bool.false_eq_true, not_false_eq_true, if_true, if_false]
    refine ⟨⟨keysNodup_upsert _ _ hkn, ?_⟩, ⟨?_, ?_⟩, ?_⟩
    · intro e hmem
      rcases mem_upsert _ _ _ hmem with hold | rfl
      · exact hswn e hold
      · constructor <;> simp [Swarm.emptySwarm, KeysNodup, upsert]
    · have hv := valsum_upsert_absent (fun sw => sw.seeders.length) ihash
        ({ Swarm.emptySwarm with seeders := upsert pk now Swarm.emptySwarm.seeders }) hl
      have hlen : (upsert pk now Swarm.emptySwarm.seeders).length = 1 := by
        simp [upsert, Swarm.emptySwarm]
      show s.numSeeders + 1 = totalSeeders _
      rw [totalSeeders] at *
      rw [hv]
      simp only [hlen]
      omega
    · have hv := valsum_upsert_absent (fun sw => sw.leechers.length) ihash
        ({ Swarm.emptySwarm with seeders := upsert pk now Swarm.emptySwarm.seeders }) hl
      show s.numLeechers = totalLeechers _
      rw [totalLeechers] at *
      rw [hv]
      simp [Swarm.emptySwarm]
      omega
    · intro e hmem
      rcases mem_upsert _ _ _ hmem with hold | rfl
      · exact hne e hold
      · simp [Swarm.emptySwarm, upsert]
  | some sw0 =>
    obtain ⟨hs0, hl0⟩ := swarm_keys_of_mem hswn hl
    by_cases hw : containsKey pk sw0.leechers = true
    · obtain ⟨v, hv0⟩ := Option.isSome_iff_exists.mp hw
      have hlenL := length_eraseKey (v := v) hl0 hv0
      unfold graduateLeecher
      simp only [hl, Option.getD_some, hw, if_true]
      refine ⟨⟨keysNodup_upsert _ _ hkn, ?_⟩, ⟨?_, ?_⟩, ?_⟩
      · intro e hmem
        rcases mem_upsert _ _ _ hmem with hold | rfl
        · exact hswn e hold
        · exact ⟨keysNodup_upsert _ _ hs0, keysNodup_eraseKey _ hl0⟩
      · have hv := valsum_upsert_present (fun sw => sw.seeders.length) ihash
          (Swarm.mk (upsert pk now sw0.seeders) (eraseKey pk sw0.leechers)) hl hkn
        beta_reduce at hv
        simp only [] at hv
        by_cases hc : containsKey pk sw0.seeders = true
        · have hlen := length_upsert_present pk now sw0.seeders hc
          simp only [hc, not_true_eq_false, if_false]
          show s.numSeeders = totalSeeders (upsert ihash
            (Swarm.mk (upsert pk now sw0.seeders) (eraseKey pk sw0.leechers)) s.swarms)
          rw [totalSeeders] at hcs ⊢
          omega
        · have hc2 : containsKey pk sw0.seeders = false := by
            cases hcc : containsKey pk sw0.seeders
            · rfl
            · exact absurd hcc hc
          have hlen := length_upsert_absent pk now sw0.seeders hc2
          simp only [hc2, Bool.false_eq_true, not_false_eq_true, if_true]
          show s.numSeeders + 1 = totalSeeders (upsert ihash
            (Swarm.mk (upsert pk now sw0.seeders) (eraseKey pk sw0.leechers)) s.swarms)
          rw [totalSeeders] at hcs ⊢
          omega
      · have hv := valsum_upsert_present (fun sw => sw.leechers.length) ihash
          (Swarm.mk (upsert pk now sw0.seeders) (eraseKey pk sw0.leechers)) hl hkn
        beta_reduce at hv
        simp only [] at hv
        show s.numLeechers - 1 = totalLeechers (upsert ihash
          (Swarm.mk (upsert pk now sw0.seeders) (eraseKey pk sw0.leechers)) s.swarms)
        rw [totalLeechers] at hcl ⊢
        omega
      · intro e hmem
        rcases mem_upsert _ _ _ hmem with hold | rfl
        · exact hne e hold
        · have := upsert_ne_nil pk now sw0.seeders
          simp only
          omega
    · have hw2 : containsKey pk sw0.leechers = false := by
        cases hcc : containsKey pk sw0.leechers
        · rfl
        · exact absurd hcc hw
      unfold graduateLeecher
      simp only [hl, Option.getD_some, hw2, Bool.false_eq_true, if_false]
      refine ⟨⟨keysNodup_upsert _ _ hkn, ?_⟩, ⟨?_, ?_⟩, ?_⟩
      · intro e hmem
        rcases mem_upsert _ _ _ hmem with hold | rfl
        · exact hswn e hold
        · exact ⟨keysNodup_upsert _ _ hs0, hl0⟩
      · have hv := valsum_upsert_present (fun sw => sw.seeders.length) ihash
          ({ sw0 with seeders := upsert pk now sw0.seeders }) hl hkn
        beta_reduce at hv
        simp only [] at hv
        by_cases hc : containsKey pk sw0.seeders = true
        · have hlen := length_upsert_present pk now sw0.seeders hc
          simp only [hc, not_true_eq_false, if_false]
          show s.numSeeders = totalSeeders (upsert ihash
            { sw0 with seeders := upsert pk now sw0.seeders } s.swarms)
          rw [totalSeeders] at hcs ⊢
          omega
        · have hc2 : containsKey pk sw0.seeders = false := by
            cases hcc : containsKey pk sw0.seeders
            · rfl
            · exact absurd hcc hc
          have hlen := length_upsert_absent pk now sw0.seeders hc2
          simp only [hc2, Bool.false_eq_true, not_false_eq_true, if_true]
          show s.numSeeders + 1 = totalSeeders (upsert ihash
            { sw0 with seeders := upsert pk now sw0.seeders } s.swarms)
          rw [totalSeeders] at hcs ⊢
          omega
      · have hv := valsum_upsert_present (fun sw => sw.leechers.length) ihash
          ({ sw0 with seeders := upsert pk now sw0.seeders }) hl hkn
        beta_reduce at hv
        simp only [] at hv
        show s.numLeechers = totalLeechers (upsert ihash
          { sw0 with seeders := upsert pk now sw0.seeders } s.swarms)
        rw [totalLeechers] at hcl ⊢
        omega
      · intro e hmem
        rcases mem_upsert _ _ _ hmem with hold | rfl
        · exact hne e hold
        · have := upsert_ne_nil pk now sw0.seeders
          simp only
          omega

lemma gcShard_inv (cutoff : Int) {s : Shard} (h : StoreInv s) :
    StoreInv (gcShard cutoff s) := by
  obtain ⟨⟨hkn, hswn⟩, ⟨hcs, hcl⟩, hne⟩ := h
  have hkeys : (s.swarms.map (fun e => (e.1, gcSwarm cutoff e.2))).map Prod.fst =
      s.swarms.map Prod.fst := by
    rw [List.map_map]
    rfl
  have hS1 : totalSeeders (s.swarms.map (fun e => (e.1, gcSwarm cutoff e.2))) =
      valsum (fun sw => (gcSwarm cutoff sw).seeders.length) s.swarms :=
    valsum_map _ _ _
  have hL1 : totalLeechers (s.swarms.map (fun e => (e.1, gcSwarm cutoff e.2))) =
      valsum (fun sw => (gcSwarm cutoff sw).leechers.length) s.swarms :=
    valsum_map _ _ _
  have hSle : valsum (fun sw => (gcSwarm cutoff sw).seeders.length) s.swarms ≤
      valsum (fun sw => sw.seeders.length) s.swarms :=
    valsum_le_valsum (fun e _ => List.length_filter_le _ _)
  have hLle : valsum (fun sw => (gcSwarm cutoff sw).leechers.length) s.swarms ≤
      valsum (fun sw => sw.leechers.length) s.swarms :=
    valsum_le_valsum (fun e _ => List.length_filter_le _ _)
  have hSdrop : totalSeeders
      (((s.swarms.map (fun e => (e.1, gcSwarm cutoff e.2)))).filter
        (fun e => e.2.seeders.length ||| e.2.leechers.length ≠ 0)) =
      totalSeeders (s.swarms.map (fun e => (e.1, gcSwarm cutoff e.2))) := by
    rw [totalSeeders, totalSeeders]
    refine valsum_filter_of_zero _ _ ?_
    intro e _ hp
    have : e.2.seeders.length ||| e.2.leechers.length = 0 := by
      by_contra hno
      simp [hno] at hp
    exact ((lor_eq_zero_iff _ _).mp this).1
  have hLdrop : totalLeechers
      (((s.swarms.map (fun e => (e.1, gcSwarm cutoff e.2)))).filter
        (fun e => e.2.seeders.length ||| e.2.leechers.length ≠ 0)) =
      totalLeechers (s.swarms.map (fun e => (e.1, gcSwarm cutoff e.2))) := by
    rw [totalLeechers, totalLeechers]
    refine valsum_filter_of_zero _ _ ?_
    intro e _ hp
    have : e.2.seeders.length ||| e.2.leechers.length = 0 := by
      by_contra hno
      simp [hno] at hp
    exact ((lor_eq_zero_iff _ _).mp this).2
  unfold gcShard
  refine ⟨⟨?_, ?_⟩, ⟨?_, ?_⟩, ?_⟩
  · show KeysNodup (List.filter _ _)
    exact keysNodup_filter _ (by rw [KeysNodup, hkeys]; exact hkn)
  · intro e hmem
    have hmem1 := List.mem_of_mem_filter hmem
    rcases List.mem_map.mp hmem1 with ⟨e0, he0, rfl⟩
    obtain ⟨hs0, hl0⟩ := hswn e0 he0
    exact ⟨keysNodup_filter _ hs0, keysNodup_filter _ hl0⟩
  · show s.numSeeders - (totalSeeders s.swarms - totalSeeders _) = totalSeeders _
    rw [hSdrop, hS1]
    rw [totalSeeders] at hcs ⊢
    omega
  · show s.numLeechers - (totalLeechers s.swarms - totalLeechers _) = totalLeechers _
    rw [hLdrop, hL1]
    rw [totalLeechers] at hcl ⊢
    omega
  · intro e hmem
    have hp := List.of_mem_filter hmem
    have : ¬ (e.2.seeders.length = 0 ∧ e.2.leechers.length = 0) := by
      intro hand
      have := (lor_eq_zero_iff _ _).mpr hand
      simp [this] at hp
    omega

/-- Every reachable shard satisfies the structural invariant, the counter
invariant, and swarm non-emptiness (the induction behind C2 and C6). -/
lemma reachable_storeInv {s : Shard} (h : Reachable s) : StoreInv s := by
  induction h with
  | empty =>
    refine ⟨⟨?_, ?_⟩, ⟨rfl, rfl⟩, ?_⟩
    · simp [Shard.emptyShard, KeysNodup]
    · intro e he
      simp [Shard.emptyShard] at he
    · intro e he
      simp [Shard.emptyShard] at he
  | putSeeder ihash pk now _ ihv => exact putSeeder_inv ihash pk now ihv
  | putLeecher ihash pk now _ ihv => exact putLeecher_inv ihash pk now ihv
  | deleteSeeder ihash pk _ hok ihv => exact deleteSeeder_inv ihv hok
  | deleteLeecher ihash pk _ hok ihv => exact deleteLeecher_inv ihv hok
  | graduateLeecher ihash pk now _ ihv => exact graduateLeecher_inv ihash pk now ihv
  | gc cutoff _ ihv => exact gcShard_inv cutoff ihv

end InvariantLemmas

/-! Lemmas about the peer-selection loops of AnnouncePeers. -/

section AnnounceLemmas

lemma takeCount_length (n : Int) (l : List String) (hn : 0 ≤ n) :
    (takeCount n l).1.length = min n.toNat l.length := by
  induction l generalizing n with
  | nil => simp [takeCount]
  | cons x rest ih =>
    by_cases h0 : n = 0
    · subst h0
      simp [takeCount]
    · have h1 : 0 ≤ n - 1 := by omega
      simp only [takeCount, if_neg h0, List.length_cons]
      have := ih (n - 1) h1
      omega

lemma takeCount_rem (n : Int) (l : List String) (hn : 0 ≤ n) :
    (takeCount n l).2 = n - (takeCount n l).1.length := by
  induction l generalizing n with
  | nil => simp [takeCount]
  | cons x rest ih =>
    by_cases h0 : n = 0
    · subst h0
      simp [takeCount]
    · have h1 : 0 ≤ n - 1 := by omega
      simp only [takeCount, if_neg h0, List.length_cons]
      have := ih (n - 1) h1
      omega

lemma takeCount_mem {n : Int} {l : List String} :
    ∀ x ∈ (takeCount n l).1, x ∈ l := by
  induction l generalizing n with
  | nil => simp [takeCount]
  | cons y rest ih =>
    intro x hx
    by_cases h0 : n = 0
    · subst h0
      simp [takeCount] at hx
    · simp only [takeCount, if_neg h0] at hx
      rcases List.mem_cons.mp hx with rfl | hx2
      · exact List.mem_cons_self _ _
      · exact List.mem_cons_of_mem _ (ih _ hx2)

lemma takeCountExcl_length (a : String) (n : Int) (l : List String) (hn : 0 ≤ n) :
    (takeCountExcl a n l).1.length =
      min n.toNat (l.filter (fun x => x ≠ a)).length := by
  induction l generalizing n with
  | nil => simp [takeCountExcl]
  | cons x rest ih =>
    by_cases hx : x = a
    · have hf : (x :: rest).filter (fun x => x ≠ a) =
          rest.filter (fun x => x ≠ a) := by
        simp [List.filter_cons, hx]
      simp only [takeCountExcl, if_pos hx, hf]
      exact ih n hn
    · have hf : (x :: rest).filter (fun x => x ≠ a) =
          x :: rest.filter (fun x => x ≠ a) := by
        simp [List.filter_cons, hx]
      by_cases h0 : n = 0
      · subst h0
        simp [takeCountExcl, if_neg hx, hf]
      · have h1 : 0 ≤ n - 1 := by omega
        simp only [takeCountExcl, if_neg hx, if_neg h0, hf, List.length_cons]
        have := ih (n - 1) h1
        omega

lemma takeCountExcl_mem (a : String) {n : Int} {l : List String} :
    ∀ x ∈ (takeCountExcl a n l).1, x ∈ l ∧ x ≠ a := by
  induction l generalizing n with
  | nil => simp [takeCountExcl]
  | cons y rest ih =>
    intro x hx
    by_cases hy : y = a
    · simp only [takeCountExcl, if_pos hy] at hx
      obtain ⟨h1, h2⟩ := ih _ hx
      exact ⟨List.mem_cons_of_mem _ h1, h2⟩
    · by_cases h0 : n = 0
      · subst h0
        simp [takeCountExcl, if_neg hy] at hx
      · simp only [takeCountExcl, if_neg hy, if_neg h0] at hx
        rcases List.mem_cons.mp hx with rfl | hx2
        · exact ⟨List.mem_cons_self _ _, hy⟩
        · obtain ⟨h1, h2⟩ := ih _ hx2
          exact ⟨List.mem_cons_of_mem _ h1, h2⟩

/-- A key occurs in the key list of an association list iff `containsKey`. -/
lemma mem_keys_iff_containsKey {α : Type u} {k : String} {l : List (String × α)} :
    k ∈ l.map Prod.fst ↔ containsKey k l = true := by
  constructor
  · intro h
    rcases List.mem_map.mp h with ⟨e, he, rfl⟩
    exact containsKey_of_mem (v := e.2) (by simpa using he)
  · intro h
    obtain ⟨v, hv⟩ := Option.isSome_iff_exists.mp h
    exact List.mem_map.mpr ⟨(k, v), lookup_mem hv, rfl⟩

end AnnounceLemmas

/-! Seeder/leecher disjointness: how each operation acts on it. -/

section DisjointLemmas

lemma containsKey_upsert_elim {α : Type u} {k k' : String} {v : α}
    {l : List (String × α)} (h : containsKey k (upsert k' v l) = true) :
    k = k' ∨ containsKey k l = true := by
  by_cases he : k = k'
  · exact Or.inl he
  · right
    rw [containsKey, lookup_upsert_ne _ _ _ _ he] at h
    exact h

lemma containsKey_eraseKey_elim {α : Type u} {k k' : String}
    {l : List (String × α)} (h : containsKey k (eraseKey k' l) = true) :
    containsKey k l = true ∧ k ≠ k' := by
  by_cases he : k = k'
  · subst he
    rw [containsKey, lookup_eraseKey_self] at h
    simp at h
  · rw [containsKey, lookup_eraseKey_ne _ _ _ he] at h
    exact ⟨h, he⟩

lemma containsKey_filter_elim {α : Type u} {k : String} {p : String × α → Bool}
    {l : List (String × α)} (h : containsKey k (l.filter p) = true) :
    containsKey k l = true := by
  obtain ⟨v, hv⟩ := Option.isSome_iff_exists.mp h
  exact containsKey_of_mem (List.mem_of_mem_filter (lookup_mem hv))

lemma disjoint_putSeeder (ihash pk : String) (now : Int) {s : Shard}
    (hd : DisjointSwarms s) (hnl : isLeecherOf ihash pk s = false) :
    DisjointSwarms (putSeeder ihash pk now s) := by
  unfold isLeecherOf at hnl
  intro e hmem k hks hkl
  unfold putSeeder at hmem
  rcases mem_upsert _ _ _ hmem with hold | rfl
  · exact hd e hold k hks hkl
  · simp only [] at hks hkl
    rcases containsKey_upsert_elim hks with rfl | hks2
    · rw [hkl] at hnl
      cases hnl
    · cases hl : List.lookup ihash s.swarms with
      | none =>
        rw [hl] at hks2 hkl
        simp [containsKey, Swarm.emptySwarm, lookup_nil] at hkl
      | some sw0 =>
        rw [hl] at hks2 hkl
        simp only [Option.getD_some] at hks2 hkl
        exact hd (ihash, sw0) (lookup_mem hl) k hks2 hkl

lemma disjoint_putLeecher (ihash pk : String) (now : Int) {s : Shard}
    (hd : DisjointSwarms s) (hns : isSeederOf ihash pk s = false) :
    DisjointSwarms (putLeecher ihash pk now s) := by
  unfold isSeederOf at hns
  intro e hmem k hks hkl
  unfold putLeecher at hmem
  rcases mem_upsert _ _ _ hmem with hold | rfl
  · exact hd e hold k hks hkl
  · simp only [] at hks hkl
    rcases containsKey_upsert_elim hkl with rfl | hkl2
    · rw [hks] at hns
      cases hns
    · cases hl : List.lookup ihash s.swarms with
      | none =>
        rw [hl] at hks hkl2
        simp [containsKey, Swarm.emptySwarm, lookup_nil] at hks
      | some sw0 =>
        rw [hl] at hks hkl2
        simp only [Option.getD_some] at hks hkl2
        exact hd (ihash, sw0) (lookup_mem hl) k hks hkl2

lemma disjoint_deleteSeeder {ihash pk : String} {s s' : Shard}
    (hd : DisjointSwarms s) (hok : deleteSeeder ihash pk s = .ok s') :
    DisjointSwarms s' := by
  obtain ⟨sw, hl, _, rfl⟩ := deleteSeeder_ok hok
  intro e hmem k hks hkl
  simp only [] at hmem
  by_cases hz : (eraseKey pk sw.seeders).length ||| sw.leechers.length = 0
  · rw [if_pos hz] at hmem
    exact hd e (mem_eraseKey _ _ hmem) k hks hkl
  · rw [if_neg hz] at hmem
    rcases mem_upsert _ _ _ hmem with hold | rfl
    · exact hd e hold k hks hkl
    · simp only [] at hks hkl
      obtain ⟨hks2, _⟩ := containsKey_eraseKey_elim hks
      exact hd (ihash, sw) (lookup_mem hl) k hks2 hkl

lemma disjoint_deleteLeecher {ihash pk : String} {s s' : Shard}
    (hd : DisjointSwarms s) (hok : deleteLeecher ihash pk s = .ok s') :
    DisjointSwarms s' := by
  obtain ⟨sw, hl, _, rfl⟩ := deleteLeecher_ok hok
  intro e hmem k hks hkl
  simp only [] at hmem
  by_cases hz : sw.seeders.length ||| (eraseKey pk sw.leechers).length = 0
  · rw [if_pos hz] at hmem
    exact hd e (mem_eraseKey _ _ hmem) k hks hkl
  · rw [if_neg hz] at hmem
    rcases mem_upsert _ _ _ hmem with hold | rfl
    · exact hd e hold k hks hkl
    · simp only [] at hks hkl
      obtain ⟨hkl2, _⟩ := containsKey_eraseKey_elim hkl
      exact hd (ihash, sw) (lookup_mem hl) k hks hkl2

lemma disjoint_graduateLeecher (ihash pk : String) (now : Int) {s : Shard}
    (hd : DisjointSwarms s) :
    DisjointSwarms (graduateLeecher ihash pk now s) := by
  intro e hmem k hks hkl
  unfold graduateLeecher at hmem
  cases hl : List.lookup ihash s.swarms with
  | none =>
    rw [hl] at hmem
    simp only [Option.getD_none, (containsKey_empty pk).2, Bool.false_eq_true,
      if_false] at hmem
    rcases mem_upsert _ _ _ hmem with hold | rfl
    · exact hd e hold k hks hkl
    · simp only [] at hkl
      simp [containsKey, Swarm.emptySwarm, lookup_nil] at hkl
  | some sw0 =>
    rw [hl] at hmem
    simp only [Option.getD_some] at hmem
    by_cases hw : containsKey pk sw0.leechers = true
    · simp only [hw, if_true] at hmem
      rcases mem_upsert _ _ _ hmem with hold | rfl
      · exact hd e hold k hks hkl
      · simp only [] at hks hkl
        obtain ⟨hkl2, hkne⟩ := containsKey_eraseKey_elim hkl
        rcases containsKey_upsert_elim hks with rfl | hks2
        · exact hkne rfl
        · exact hd (ihash, sw0) (lookup_mem hl) k hks2 hkl2
    · have hw2 : containsKey pk sw0.leechers = false := by
        cases hcc : containsKey pk sw0.leechers
        · rfl
        · exact absurd hcc hw
      simp only [hw2, Bool.false_eq_true, if_false] at hmem
      rcases mem_upsert _ _ _ hmem with hold | rfl
      · exact hd e hold k hks hkl
      · simp only [] at hks hkl
        rcases containsKey_upsert_elim hks with rfl | hks2
        · rw [hkl] at hw2
          cases hw2
        · exact hd (ihash, sw0) (lookup_mem hl) k hks2 hkl

lemma disjoint_gcShard (cutoff : Int) {s : Shard} (hd : DisjointSwarms s) :
    DisjointSwarms (gcShard cutoff s) := by
  intro e hmem k hks hkl
  unfold gcShard at hmem
  have hmem1 := List.mem_of_mem_filter hmem
  rcases List.mem_map.mp hmem1 with ⟨e0, he0, rfl⟩
  simp only [gcSwarm] at hks hkl
  exact hd e0 he0 k (containsKey_filter_elim hks) (containsKey_filter_elim hkl)

end DisjointLemmas

/-! GC idempotence helpers. -/

section GCLemmas

lemma filter_self_of_filter {α : Type u} (p : α → Bool) (l : List α) :
    (l.filter p).filter p = l.filter p :=
  List.filter_eq_self.mpr (fun _ ha => List.of_mem_filter ha)

lemma gcSwarm_idem (cutoff : Int) (sw : Swarm) :
    gcSwarm cutoff (gcSwarm cutoff sw) = gcSwarm cutoff sw := by
  unfold gcSwarm
  simp only [filter_self_of_filter]

end GCLemmas

/-! Connection-ID helpers. -/

section ConnIDLemmas

lemma u32be_length (n : Nat) : (u32be n).length = 4 := rfl

lemma beUint32_u32be (n : Nat) (h : n < 4294967296) : beUint32 (u32be n) = n := by
  simp only [u32be, beUint32]
  omega

lemma unixSec_bounds (t : Int) :
    unixSec t * 1000000000 ≤ t ∧ t < (unixSec t + 1) * 1000000000 := by
  unfold unixSec
  have h1 := Int.fdiv_add_fmod t 1000000000
  have h2 := Int.fmod_nonneg' t (by norm_num : (0:Int) < 1000000000)
  have h3 := Int.fmod_lt_of_pos t (by norm_num : (0:Int) < 1000000000)
  omega

end ConnIDLemmas

/-! Client-approval helpers. -/

section ApprovalLemmas

lemma buildSet_nil : buildSet [] = .ok [] := rfl

lemma newHook_ok_elim {cfg : CAConfig} {h : CAHook}
    (hok : newHook cfg = .ok h) :
    ¬ (0 < cfg.whitelist.length ∧ 0 < cfg.blacklist.length) ∧
    ∃ a u, buildSet cfg.whitelist = .ok a ∧ buildSet cfg.blacklist = .ok u ∧
      h = ⟨a, u⟩ := by
  unfold newHook at hok
  by_cases hb : 0 < cfg.whitelist.length ∧ 0 < cfg.blacklist.length
  · rw [if_pos hb] at hok
    simp at hok
  · rw [if_neg hb] at hok
    refine ⟨hb, ?_⟩
    cases hba : buildSet cfg.whitelist with
    | error e =>
      simp only [hba] at hok
      exact absurd hok (by simp)
    | ok a =>
      simp only [hba] at hok
      cases hbb : buildSet cfg.blacklist with
      | error e =>
        simp only [hbb] at hok
        exact absurd hok (by simp)
      | ok u =>
        simp only [hbb] at hok
        refine ⟨a, u, rfl, rfl, ?_⟩
        simpa using hok.symm

lemma newHook_one_sided {cfg : CAConfig} {h : CAHook}
    (hok : newHook cfg = .ok h) :
    h.approved = [] ∨ h.unapproved = [] := by
  obtain ⟨hb, a, u, hba, hbb, rfl⟩ := newHook_ok_elim hok
  rcases Nat.eq_zero_or_pos cfg.whitelist.length with hwl | hwl
  · left
    have hnil : cfg.whitelist = [] := List.length_eq_zero.mp hwl
    rw [hnil, buildSet_nil] at hba
    have : ([] : List (List Nat)) = a := by
      simpa using hba
    simpa using this.symm
  · rcases Nat.eq_zero_or_pos cfg.blacklist.length with hbl | hbl
    · right
      have hnil : cfg.blacklist = [] := List.length_eq_zero.mp hbl
      rw [hnil, buildSet_nil] at hbb
      have : ([] : List (List Nat)) = u := by
        simpa using hbb
      simpa using this.symm
    · exact absurd ⟨hwl, hbl⟩ hb

end ApprovalLemmas

/-! The claim theorems. -/

/-- C1 counterexample: the claim "seeders and leechers are disjoint in every
reachable store state" is false on the code.  `PutSeeder` does not remove the
peer from the leechers map, so after `PutLeecher(ih, p); PutSeeder(ih, p)`
(a reachable state) the peer `p` is simultaneously a seeder and a leecher of
the same swarm. -/
theorem put_put_breaks_disjointness :
    Reachable (putSeeder "ih" "p" 1 (putLeecher "ih" "p" 0 Shard.emptyShard)) ∧
    isSeederOf "ih" "p"
      (putSeeder "ih" "p" 1 (putLeecher "ih" "p" 0 Shard.emptyShard)) = true ∧
    isLeecherOf "ih" "p"
      (putSeeder "ih" "p" 1 (putLeecher "ih" "p" 0 Shard.emptyShard)) = true ∧
    ¬ DisjointSwarms (putSeeder "ih" "p" 1 (putLeecher "ih" "p" 0 Shard.emptyShard)) := by
  refine ⟨Reachable.putSeeder _ _ _ (Reachable.putLeecher _ _ _ Reachable.empty),
    by decide, by decide, ?_⟩
  intro hd
  have hl : List.lookup "ih"
      (putSeeder "ih" "p" 1 (putLeecher "ih" "p" 0 Shard.emptyShard)).swarms =
      some (Swarm.mk [("p", 1)] [("p", 0)]) := by decide
  exact hd _ (lookup_mem hl) "p" (by decide) (by decide)

/-- C1 (amended): seeder/leecher disjointness is not an invariant of the full
operation set; it is preserved by DeleteSeeder, DeleteLeecher,
GraduateLeecher and gc unconditionally, and by PutSeeder (resp. PutLeecher)
exactly when the peer is not currently a leecher (resp. seeder) of that
swarm. -/
theorem disjointness_preserved_guarded {s : Shard} (hd : DisjointSwarms s) :
    (∀ ihash pk now, isLeecherOf ihash pk s = false →
        DisjointSwarms (putSeeder ihash pk now s)) ∧
    (∀ ihash pk now, isSeederOf ihash pk s = false →
        DisjointSwarms (putLeecher ihash pk now s)) ∧
    (∀ ihash pk s', deleteSeeder ihash pk s = .ok s' → DisjointSwarms s') ∧
    (∀ ihash pk s', deleteLeecher ihash pk s = .ok s' → DisjointSwarms s') ∧
    (∀ ihash pk now, DisjointSwarms (graduateLeecher ihash pk now s)) ∧
    (∀ cutoff, DisjointSwarms (gcShard cutoff s)) :=
  ⟨fun i p n hg => disjoint_putSeeder i p n hd hg,
   fun i p n hg => disjoint_putLeecher i p n hd hg,
   fun _ _ _ hok => disjoint_deleteSeeder hd hok,
   fun _ _ _ hok => disjoint_deleteLeecher hd hok,
   fun i p n => disjoint_graduateLeecher i p n hd,
   fun c => disjoint_gcShard c hd⟩

/-- C1 witness: the amended preservation theorem applied at the empty shard
and a concrete gc sweep. -/
theorem disjointness_preserved_guarded_witness :
    DisjointSwarms (gcShard 0 Shard.emptyShard) :=
  (disjointness_preserved_guarded (s := Shard.emptyShard)
    (by intro e he k h1 h2; simp [Shard.emptyShard] at he)).2.2.2.2.2 0

/-- C2: in every reachable shard the cached counters equal the sums of the
seeder and leecher map sizes over the swarms of the shard; reachability is
closed under every completed store operation. -/
theorem counters_match_reachable {s : Shard} (h : Reachable s) :
    s.numSeeders = totalSeeders s.swarms ∧
    s.numLeechers = totalLeechers s.swarms :=
  (reachable_storeInv h).2.1

/-- C2 witness: the counter invariant evaluated after a concrete operation
sequence from the empty shard. -/
theorem counters_match_reachable_witness :
    (putSeeder "ih" "p" 5 Shard.emptyShard).numSeeders =
      totalSeeders (putSeeder "ih" "p" 5 Shard.emptyShard).swarms ∧
    (putSeeder "ih" "p" 5 Shard.emptyShard).numLeechers =
      totalLeechers (putSeeder "ih" "p" 5 Shard.emptyShard).swarms :=
  counters_match_reachable (Reachable.putSeeder "ih" "p" 5 Reachable.empty)

/-- C5: after `GraduateLeecher(ih, p)` the swarm of `ih` exists (created if it
was absent), `p` is a seeder with the current clock, `p` is not a leecher,
and `numLeechers` is decremented exactly once iff `p` was previously a
leecher of that swarm. -/
theorem graduateLeecher_spec (ihash pk : String) (now : Int) (s : Shard) :
    ∃ sw', List.lookup ihash (graduateLeecher ihash pk now s).swarms = some sw' ∧
      List.lookup pk sw'.seeders = some now ∧
      List.lookup pk sw'.leechers = none ∧
      (graduateLeecher ihash pk now s).numLeechers =
        (if isLeecherOf ihash pk s = true then s.numLeechers - 1
         else s.numLeechers) := by
  cases hl : List.lookup ihash s.swarms with
  | none =>
    have hLf : isLeecherOf ihash pk s = false := by
      unfold isLeecherOf
      rw [hl]
      exact (containsKey_empty pk).2
    unfold graduateLeecher
    simp only [hl, Option.getD_none, (containsKey_empty pk).1, (containsKey_empty pk).2,
      Bool.false_eq_true, not_false_eq_true, if_true, if_false]
    refine ⟨_, lookup_upsert_self _ _ _, ?_, ?_, ?_⟩
    · exact lookup_upsert_self _ _ _
    · exact lookup_nil pk
    · rw [hLf]
      simp
  | some sw0 =>
    by_cases hw : containsKey pk sw0.leechers = true
    · have hLt : isLeecherOf ihash pk s = true := by
        unfold isLeecherOf
        rw [hl]
        exact hw
      unfold graduateLeecher
      simp only [hl, Option.getD_some, hw, if_true]
      refine ⟨_, lookup_upsert_self _ _ _, ?_, ?_, ?_⟩
      · exact lookup_upsert_self _ _ _
      · exact lookup_eraseKey_self _ _
      · rw [hLt]
        simp
    · have hw2 : containsKey pk sw0.leechers = false := by
        cases hcc : containsKey pk sw0.leechers
        · rfl
        · exact absurd hcc hw
      have hLf : isLeecherOf ihash pk s = false := by
        unfold isLeecherOf
        rw [hl]
        exact hw2
      unfold graduateLeecher
      simp only [hl, Option.getD_some, hw2, Bool.false_eq_true, if_false]
      refine ⟨_, lookup_upsert_self _ _ _, ?_, ?_, ?_⟩
      · exact lookup_upsert_self _ _ _
      · rw [containsKey] at hw2
        cases hlk : List.lookup pk sw0.leechers with
        | none => rfl
        | some v =>
          rw [hlk] at hw2
          cases hw2
      · rw [hLf]
        simp

/-- C6: every swarm present in a reachable shard is non-empty: it holds at
least one seeder or leecher (the operations that can empty a swarm delete it
from the shard). -/
theorem swarms_nonempty_reachable {s : Shard} (h : Reachable s) :
    ∀ ihash sw, List.lookup ihash s.swarms = some sw →
      0 < sw.seeders.length + sw.leechers.length := by
  intro ihash sw hl
  exact (reachable_storeInv h).2.2 (ihash, sw) (lookup_mem hl)

/-- C6 witness: the non-emptiness invariant evaluated on the swarm created by
a concrete PutSeeder from the empty shard. -/
theorem swarms_nonempty_reachable_witness :
    0 < (Swarm.mk [("p", (0:Int))] []).seeders.length +
        (Swarm.mk [("p", (0:Int))] []).leechers.length :=
  swarms_nonempty_reachable (Reachable.putSeeder "ih" "p" 0 Reachable.empty)
    "ih" (Swarm.mk [("p", 0)] []) (by decide)

/-- C7: the gc sweep is idempotent: running it twice with the same cutoff
yields the same shard state (swarm maps and cached counters) as running it
once. -/
theorem gc_idempotent (cutoff : Int) (s : Shard) :
    gcShard cutoff (gcShard cutoff s) = gcShard cutoff s := by
  have hfix : ∀ e ∈ (gcShard cutoff s).swarms,
      (fun e : String × Swarm => (e.1, gcSwarm cutoff e.2)) e = id e := by
    intro e hmem
    have hmem1 := List.mem_of_mem_filter hmem
    rcases List.mem_map.mp hmem1 with ⟨e0, _, rfl⟩
    show (e0.1, gcSwarm cutoff (gcSwarm cutoff e0.2)) = _
    rw [gcSwarm_idem]
    rfl
  have hmap : (gcShard cutoff s).swarms.map (fun e => (e.1, gcSwarm cutoff e.2)) =
      (gcShard cutoff s).swarms := by
    rw [List.map_congr_left hfix, List.map_id]
  have hfil : (gcShard cutoff s).swarms.filter
      (fun e => e.2.seeders.length ||| e.2.leechers.length ≠ 0) =
      (gcShard cutoff s).swarms := by
    refine List.filter_eq_self.mpr ?_
    intro a ha
    have ha2 : a ∈ (s.swarms.map (fun e => (e.1, gcSwarm cutoff e.2))).filter
        (fun e => e.2.seeders.length ||| e.2.leechers.length ≠ 0) := ha
    exact List.of_mem_filter
      (p := fun e : String × Swarm =>
        decide (e.2.seeders.length ||| e.2.leechers.length ≠ 0)) ha2
  have h1 : gcShard cutoff (gcShard cutoff s) = Shard.mk
      (((gcShard cutoff s).swarms.map (fun e => (e.1, gcSwarm cutoff e.2))).filter
        (fun e => e.2.seeders.length ||| e.2.leechers.length ≠ 0))
      ((gcShard cutoff s).numSeeders - (totalSeeders (gcShard cutoff s).swarms -
        totalSeeders ((gcShard cutoff s).swarms.map (fun e => (e.1, gcSwarm cutoff e.2)))))
      ((gcShard cutoff s).numLeechers - (totalLeechers (gcShard cutoff s).swarms -
        totalLeechers ((gcShard cutoff s).swarms.map (fun e => (e.1, gcSwarm cutoff e.2))))) :=
    rfl
  rw [h1, hmap, hfil]
  simp only [Nat.sub_self, Nat.sub_zero]

/-- C3: AnnouncePeers on the swarm of `ih`: an absent swarm returns
`ResourceDoesNotExist`; a seeding announcer receives exactly
`min numWant (len leechers)` leechers; a leeching announcer receives up to
`numWant` peers, first all available seeders then leechers other than
itself, with total length
`min numWant (len seeders + len (leechers minus the announcer))`. -/
theorem announcePeers_spec (ihash : String) (seeder : Bool) (numWant : Int)
    (announcerPK : String) (s : Shard) (hn : 0 ≤ numWant) :
    (List.lookup ihash s.swarms = none →
      announcePeers ihash seeder numWant announcerPK s =
        .error .resourceDoesNotExist) ∧
    (∀ sw, List.lookup ihash s.swarms = some sw → seeder = true →
      ∃ res, announcePeers ihash seeder numWant announcerPK s = .ok res ∧
        res.length = min numWant.toNat sw.leechers.length ∧
        ∀ pk ∈ res, containsKey pk sw.leechers = true) ∧
    (∀ sw, List.lookup ihash s.swarms = some sw → seeder = false →
      ∃ res, announcePeers ihash seeder numWant announcerPK s = .ok res ∧
        res.length = min numWant.toNat (sw.seeders.length +
          ((sw.leechers.map Prod.fst).filter (fun x => x ≠ announcerPK)).length) ∧
        ∀ pk ∈ res, containsKey pk sw.seeders = true ∨
          (containsKey pk sw.leechers = true ∧ pk ≠ announcerPK)) := by
  refine ⟨?_, ?_, ?_⟩
  · intro hl
    unfold announcePeers
    simp only [hl]
  · intro sw hl hsd
    subst hsd
    unfold announcePeers
    simp only [hl, if_true]
    refine ⟨_, rfl, ?_, ?_⟩
    · rw [takeCount_length _ _ hn, List.length_map]
    · intro pk hpk
      have hmem := takeCount_mem _ hpk
      exact mem_keys_iff_containsKey.mp hmem
  · intro sw hl hsd
    subst hsd
    unfold announcePeers
    simp only [hl, Bool.false_eq_true, if_false]
    have hlenS := takeCount_length numWant (sw.seeders.map Prod.fst) hn
    have hremS := takeCount_rem numWant (sw.seeders.map Prod.fst) hn
    rw [List.length_map] at hlenS
    by_cases hr : 0 < (takeCount numWant (sw.seeders.map Prod.fst)).2
    · rw [if_pos hr]
      have hrem0 : 0 ≤ (takeCount numWant (sw.seeders.map Prod.fst)).2 := by omega
      have hlenL := takeCountExcl_length announcerPK
        (takeCount numWant (sw.seeders.map Prod.fst)).2 (sw.leechers.map Prod.fst) hrem0
      refine ⟨_, rfl, ?_, ?_⟩
      · rw [List.length_append, hlenL]
        omega
      · intro pk hpk
        rcases List.mem_append.mp hpk with hin | hin
        · exact Or.inl (mem_keys_iff_containsKey.mp (takeCount_mem _ hin))
        · obtain ⟨h1, h2⟩ := takeCountExcl_mem announcerPK _ hin
          exact Or.inr ⟨mem_keys_iff_containsKey.mp h1, h2⟩
    · rw [if_neg hr]
      refine ⟨_, rfl, ?_, ?_⟩
      · omega
      · intro pk hpk
        exact Or.inl (mem_keys_iff_containsKey.mp (takeCount_mem _ hpk))

/-- C3 witness: a leeching announcer in a concrete two-peer swarm receives
the seeder and the other leecher, never itself. -/
theorem announcePeers_spec_witness :
    ∃ res, announcePeers "ih" false 10 "L1"
        (putLeecher "ih" "L2" 0 (putSeeder "ih" "S1" 0 Shard.emptyShard)) = .ok res ∧
      res.length = 2 ∧
      ∀ pk ∈ res, containsKey pk [("S1", (0:Int))] = true ∨
        (containsKey pk [("L2", (0:Int))] = true ∧ pk ≠ "L1") := by
  have h := (announcePeers_spec "ih" false 10 "L1"
      (putLeecher "ih" "L2" 0 (putSeeder "ih" "S1" 0 Shard.emptyShard))
      (by decide)).2.2 (Swarm.mk [("S1", 0)] [("L2", 0)]) (by decide) rfl
  exact h

/-- C4 counterexample: the unguarded round-trip claim fails.  Generate
truncates the unix time to 32 bits, so at `now = 2^32` seconds the embedded
timestamp wraps to 0 and Validate rejects the freshly generated ID as
expired. -/
theorem connid_roundtrip_counterexample :
    validate (fun _ => List.replicate 32 0)
      (generate (fun _ => List.replicate 32 0) [192, 0, 2, 1]
        (4294967296 * 1000000000))
      [192, 0, 2, 1] (4294967296 * 1000000000) 0 = some false := by
  decide

/-- C4 (amended): for every keyed mac, IP and time whose unix seconds fit in
32 bits (0 ≤ now.Unix() < 2^32), Validate(Generate(ip, now), ip, now, 0)
returns true. -/
theorem connid_roundtrip (mac : List Nat → List Nat) (ipBytes : List Nat)
    (nowNs : Int) (h1 : 0 ≤ unixSec nowNs) (h2 : unixSec nowNs < 4294967296) :
    validate mac (generate mac ipBytes nowNs) ipBytes nowNs 0 = some true := by
  obtain ⟨hb1, hb2⟩ := unixSec_bounds nowNs
  unfold generate validate
  rw [Int.emod_eq_of_lt h1 h2]
  have htoNat : ((unixSec nowNs).toNat : Int) = unixSec nowNs :=
    Int.toNat_of_nonneg h1
  have hlt : (unixSec nowNs).toNat < 4294967296 := by omega
  have htake : (u32be (unixSec nowNs).toNat ++
      (mac (u32be (unixSec nowNs).toNat ++ ipBytes)).take 4).take 4 =
      u32be (unixSec nowNs).toNat := by
    rw [show (4:Nat) = (u32be (unixSec nowNs).toNat).length from (u32be_length _).symm]
    exact List.take_left _ _
  have hdrop : (u32be (unixSec nowNs).toNat ++
      (mac (u32be (unixSec nowNs).toNat ++ ipBytes)).take 4).drop 4 =
      (mac (u32be (unixSec nowNs).toNat ++ ipBytes)).take 4 := by
    rw [show (4:Nat) = (u32be (unixSec nowNs).toNat).length from (u32be_length _).symm]
    exact List.drop_left _ _
  rw [if_neg (by simp [u32be])]
  rw [htake, hdrop, beUint32_u32be _ hlt, htoNat]
  rw [if_neg (by rw [ttlNs]; omega)]
  simp

/-- C4 witness: the amended round-trip theorem at a concrete mac, IP and
in-range time. -/
theorem connid_roundtrip_witness :
    validate (fun _ => List.replicate 32 0)
      (generate (fun _ => List.replicate 32 0) [127, 0, 0, 1] 5000000000)
      [127, 0, 0, 1] 5000000000 0 = some true :=
  connid_roundtrip (fun _ => List.replicate 32 0) [127, 0, 0, 1] 5000000000
    (by decide) (by decide)

/-- C8: for a connection ID of at least 4 bytes, Validate returns false
whenever the ID is expired (now > ts + TTL) or too far in the future
(ts > now + maxSkew); otherwise it returns true iff the bytes after the
timestamp equal the first 4 bytes of the recomputed mac over
timestamp ∥ ip. -/
theorem validate_spec (mac : List Nat → List Nat) (connID ipBytes : List Nat)
    (nowNs maxSkew : Int) (h4 : 4 ≤ connID.length) :
    (nowNs > (beUint32 (connID.take 4) : Int) * 1000000000 + ttlNs →
      validate mac connID ipBytes nowNs maxSkew = some false) ∧
    ((beUint32 (connID.take 4) : Int) * 1000000000 > nowNs + maxSkew →
      validate mac connID ipBytes nowNs maxSkew = some false) ∧
    (nowNs ≤ (beUint32 (connID.take 4) : Int) * 1000000000 + ttlNs →
      (beUint32 (connID.take 4) : Int) * 1000000000 ≤ nowNs + maxSkew →
      (validate mac connID ipBytes nowNs maxSkew = some true ↔
        connID.drop 4 = (mac (connID.take 4 ++ ipBytes)).take 4)) := by
  have hnot : ¬ connID.length < 4 := by omega
  unfold validate
  rw [if_neg hnot]
  refine ⟨?_, ?_, ?_⟩
  · intro hgt
    rw [if_pos (Or.inl hgt)]
  · intro hgt
    rw [if_pos (Or.inr hgt)]
  · intro hle1 hle2
    rw [if_neg (by omega)]
    simp only [Option.some.injEq, decide_eq_true_eq]
    constructor
    · intro hv
      exact hv.symm
    · intro hv
      exact hv.symm

/-- C8 witness: the characterization applied to a concrete all-zero
connection ID, where the recomputed tag matches. -/
theorem validate_spec_witness :
    validate (fun _ => List.replicate 32 0) [0, 0, 0, 0, 0, 0, 0, 0]
      [127, 0, 0, 1] 0 0 = some true := by
  have h := (validate_spec (fun _ => List.replicate 32 0)
      [0, 0, 0, 0, 0, 0, 0, 0] [127, 0, 0, 1] 0 0 (by decide)).2.2
      (by decide) (by decide)
  exact h.mpr (by decide)

/-- C10: Validate requires at least 4 bytes of connection ID: shorter inputs
hit the out-of-range slice (embedded as `none`); any input of length ≥ 4
yields a boolean, and lengths 4..7 always yield false because the 4-byte tag
cannot equal the shorter tail. -/
theorem validate_domain (mac : List Nat → List Nat) (connID ipBytes : List Nat)
    (nowNs maxSkew : Int) (hmac : ∀ msg, 4 ≤ (mac msg).length) :
    (connID.length < 4 → validate mac connID ipBytes nowNs maxSkew = none) ∧
    (4 ≤ connID.length →
      ∃ b, validate mac connID ipBytes nowNs maxSkew = some b) ∧
    (4 ≤ connID.length → connID.length < 8 →
      validate mac connID ipBytes nowNs maxSkew = some false) := by
  refine ⟨?_, ?_, ?_⟩
  · intro h
    unfold validate
    rw [if_pos h]
  · intro h
    unfold validate
    rw [if_neg (by omega)]
    by_cases hrej : nowNs > (beUint32 (connID.take 4) : Int) * 1000000000 + ttlNs ∨
        (beUint32 (connID.take 4) : Int) * 1000000000 > nowNs + maxSkew
    · rw [if_pos hrej]
      exact ⟨false, rfl⟩
    · rw [if_neg hrej]
      exact ⟨_, rfl⟩
  · intro h4 h8
    unfold validate
    rw [if_neg (by omega)]
    by_cases hrej : nowNs > (beUint32 (connID.take 4) : Int) * 1000000000 + ttlNs ∨
        (beUint32 (connID.take 4) : Int) * 1000000000 > nowNs + maxSkew
    · rw [if_pos hrej]
    · rw [if_neg hrej]
      have hlen1 : ((mac (connID.take 4 ++ ipBytes)).take 4).length = 4 := by
        rw [List.length_take]
        have := hmac (connID.take 4 ++ ipBytes)
        omega
      have hlen2 : (connID.drop 4).length = connID.length - 4 :=
        List.length_drop _ _
      have hne : (mac (connID.take 4 ++ ipBytes)).take 4 ≠ connID.drop 4 := by
        intro heq
        have := congrArg List.length heq
        rw [hlen1, hlen2] at this
        omega
      simp [hne]

/-- C10 witness: a 3-byte connection ID is outside the domain (Go would
panic on the slice), embedded as `none`. -/
theorem validate_domain_witness :
    validate (fun _ => List.replicate 32 0) [1, 2, 3] [9] 0 0 = none :=
  (validate_domain (fun _ => List.replicate 32 0) [1, 2, 3] [9] 0 0
    (fun _ => by show 4 ≤ (List.replicate 32 0).length; decide)).1 (by decide)

/-- C9: for a hook built by NewHook from a valid configuration, at most one
approval set is non-empty, and HandleAnnounce rejects iff the whitelist is
non-empty and misses the announcer's ClientID, or the blacklist is non-empty
and holds it; otherwise the announce is admitted. -/
theorem handleAnnounce_spec (cfg : CAConfig) (h : CAHook) (peerID : List Nat)
    (hok : newHook cfg = .ok h) :
    (h.approved = [] ∨ h.unapproved = []) ∧
    (h.approved ≠ [] → newClientID peerID ∉ h.approved →
      handleAnnounce h peerID = some "unapproved client") ∧
    (¬ (h.approved ≠ [] ∧ newClientID peerID ∉ h.approved) →
      h.unapproved ≠ [] → newClientID peerID ∈ h.unapproved →
      handleAnnounce h peerID = some "unapproved client") ∧
    (¬ (h.approved ≠ [] ∧ newClientID peerID ∉ h.approved) →
      ¬ (h.unapproved ≠ [] ∧ newClientID peerID ∈ h.unapproved) →
      handleAnnounce h peerID = none) := by
  refine ⟨newHook_one_sided hok, ?_, ?_, ?_⟩
  · intro h1 h2
    unfold handleAnnounce
    rw [if_pos ⟨List.length_pos.mpr h1, h2⟩]
  · intro hn1 h1 h2
    unfold handleAnnounce
    rw [if_neg (by
      intro hand
      exact hn1 ⟨by
        intro hnil
        rw [hnil] at hand
        simp at hand, hand.2⟩)]
    rw [if_pos ⟨List.length_pos.mpr h1, h2⟩]
  · intro hn1 hn2
    unfold handleAnnounce
    rw [if_neg (by
      intro hand
      exact hn1 ⟨by
        intro hnil
        rw [hnil] at hand
        simp at hand, hand.2⟩)]
    rw [if_neg (by
      intro hand
      exact hn2 ⟨by
        intro hnil
        rw [hnil] at hand
        simp at hand, hand.2⟩)]

/-- C9 witness: whitelist {"-AZ206"}; a peer ID with ClientID "-TR300" is
rejected as an unapproved client. -/
theorem handleAnnounce_spec_witness :
    handleAnnounce ⟨[[45, 65, 90, 50, 48, 54]], []⟩
      ([45, 84, 82, 51, 48, 48] ++ List.replicate 14 0) =
      some "unapproved client" := by
  have h := (handleAnnounce_spec ⟨[[45, 65, 90, 50, 48, 54]], []⟩
      ⟨[[45, 65, 90, 50, 48, 54]], []⟩
      ([45, 84, 82, 51, 48, 48] ++ List.replicate 14 0) rfl).2.1
  exact h (by decide) (by decide)

end Mochi

